import Mathlib

/-!
# Sudoku solver (`sudoku.go`): embedding and verified properties

The board of the program is the Go array `[81]int`, stored row-major.  It is
embedded as a list of integers; every statement about a board carries the
hypothesis that the list has 81 entries.  Cell values are unbounded integers
(`Int`): the program only compares them with each other and with `0`, and only
ever writes the constants of `nums`.  Cursor positions `ptr` and scan indices
are natural numbers: the program indexes the array with them, so a negative
position is not a position.

The recursion of `solve` is embedded with a bound on the nesting depth
(`solveFuel`); `solve` supplies the depth `81 - ptr + 1`, and it is proved that
this depth always suffices and that a larger one gives the same result.

The functions `buildBoard` and `printBoard` read and write text.  A Go string
is embedded as a list of characters, and the library functions they call
(`fmt.Print`, `strconv.Atoi`, `strings.Split`, the line splitting of
`bufio.Scanner`) are modelled from their documented behaviour; `buildBoard`
returns the board, or how it aborted.
-/

namespace Sudoku

/-! ## The program -/

/-- The board `[81]int`: cells in row-major order. -/
abbrev Board := List Int

/-- The Go expression `board[i]`. -/
def cell (board : Board) (i : Nat) : Int := board.getD i 0

/-- The candidate table `var nums = [10]int{9, 8, 7, 6, 5, 4, 3, 2, 1, 0}`. -/
def nums : List Int := [9, 8, 7, 6, 5, 4, 3, 2, 1, 0]

/-- The function `x_y`: the pair `(x, y) = (ptr % 9, ptr / 9)`. -/
def x_y (ptr : Nat) : Nat × Nat :=
  let x := ptr % 9
  let y := ptr / 9
  (x, y)

/-- The function `inSameSector`. -/
def inSameSector (x y ptr_x ptr_y : Nat) : Bool :=
  x / 3 == ptr_x / 3 && y / 3 == ptr_y / 3

/-- A Go `map[int]bool` in which keys are only ever set to `true`: the list of
the keys that have been set. `seen[val] == true` is membership. -/
abbrev Seen := List Int

/-- The function `axisIsInvalid`: the returned flag, and the map after the call. -/
def axisIsInvalid (val : Int) (seen : Seen) : Bool × Seen :=
  if seen.contains val then (true, seen) else (false, val :: seen)

/-- The loop `for i := 0; i < len(board); i++` of `checkSpace`, from index `i`
on; `cells` holds `board[i], board[i+1], ...`, and `row`, `col`, `sec` are the
three maps. -/
def checkScan (ptr_x ptr_y : Nat) : List Int → Nat → Seen → Seen → Seen → Bool
  | [], _, _, _, _ => true
  | val :: rest, i, row, col, sec =>
    if val == 0 then checkScan ptr_x ptr_y rest (i + 1) row col sec
    else
      let (x, y) := x_y i
      let r := if y == ptr_y then axisIsInvalid val row else (false, row)
      if r.1 then false
      else
        let c := if x == ptr_x then axisIsInvalid val col else (false, col)
        if c.1 then false
        else
          let s := if inSameSector x y ptr_x ptr_y then axisIsInvalid val sec else (false, sec)
          if s.1 then false
          else checkScan ptr_x ptr_y rest (i + 1) r.2 c.2 s.2

/-- The function `checkSpace`. -/
def checkSpace (board : Board) (ptr : Nat) : Bool :=
  let (ptr_x, ptr_y) := x_y ptr
  checkScan ptr_x ptr_y board 0 [] [] []

/-- The loop `for _, n := range nums` of `solve` at position `ptr`, over the
remaining candidates; `next` is the recursive call `solve(board, ptr+1)`.
A result is the returned boolean with the board left behind; `none` is a
recursive call that did not return.  Falling off the end of the loop is the
final `return true`. -/
def solveLoop (next : Board → Option (Bool × Board)) (ptr : Nat) :
    List Int → Board → Option (Bool × Board)
  | [], board => some (true, board)
  | n :: rest, board =>
    let board1 := board.set ptr n
    if cell board1 ptr == 0 then some (false, board1)
    else if checkSpace board1 ptr == false then solveLoop next ptr rest board1
    else
      match next board1 with
      | none => none
      | some (true, board2) => some (true, board2)
      | some (false, board2) => solveLoop next ptr rest board2

/-- The function `solve`, with a bound `fuel` on the nesting depth of calls. -/
def solveFuel : Nat → Board → Nat → Option (Bool × Board)
  | 0, _, _ => none
  | fuel + 1, board, ptr =>
    if ptr ≥ 81 then some (true, board)
    else if cell board ptr != 0 && checkSpace board ptr == true then
      solveFuel fuel board (ptr + 1)
    else solveLoop (fun board1 => solveFuel fuel board1 (ptr + 1)) ptr nums board

/-- The call `solve(board, ptr)`: fuel for this frame and for one frame at each
of the positions `ptr + 1, ..., 81`. -/
def solve (board : Board) (ptr : Nat) : Option (Bool × Board) :=
  solveFuel (81 - ptr + 1) board ptr

/-! ## Specification: groups of positions and collisions -/

/-- Positions `i` and `j` lie in the same row: equal `y` of `x_y`. -/
def sameRow (i j : Nat) : Bool := (x_y i).2 == (x_y j).2

/-- Positions `i` and `j` lie in the same column: equal `x` of `x_y`. -/
def sameCol (i j : Nat) : Bool := (x_y i).1 == (x_y j).1

/-- Positions `i` and `j` lie in the same 3x3 box, as `inSameSector` decides it. -/
def sameBox (i j : Nat) : Bool :=
  inSameSector (x_y i).1 (x_y i).2 (x_y j).1 (x_y j).2

/-- Positions `i` and `j` share a row, a column or a box. -/
def related (i j : Nat) : Bool := sameRow i j || sameCol i j || sameBox i j

/-- Two distinct positions, both in the row of `ptr`, or both in its column, or
both in its box, hold the same non-zero value. -/
def Collision (b : Board) (ptr : Nat) : Prop :=
  ∃ i j, i < 81 ∧ j < 81 ∧ i ≠ j ∧ cell b i = cell b j ∧ cell b i ≠ 0 ∧
    ((sameRow i ptr = true ∧ sameRow j ptr = true) ∨
     (sameCol i ptr = true ∧ sameCol j ptr = true) ∨
     (sameBox i ptr = true ∧ sameBox j ptr = true))

/-- The non-zero values of the cells of one group (those selected by `g`) are
pairwise distinct. -/
def GroupDistinct (b : Board) (g : Nat → Bool) : Prop :=
  ∀ i j, i < 81 → j < 81 → i ≠ j → g i = true → g j = true → cell b i ≠ 0 →
    cell b i ≠ cell b j

/-- One constraint group scanned alone: `true` when a non-zero value of a cell
selected by `g` is met that is already in `seen`. -/
def dupScan (g : Nat → Bool) : List Int → Nat → Seen → Bool
  | [], _, _ => false
  | val :: rest, i, seen =>
    if val != 0 && g i then
      if seen.contains val then true else dupScan g rest (i + 1) (val :: seen)
    else dupScan g rest (i + 1) seen

/-- No row, column or box holds the same non-zero value twice. -/
def Consistent (b : Board) : Prop :=
  ∀ i, i < 81 → ∀ j, j < 81 → i ≠ j → related i j = true → cell b i ≠ 0 →
    cell b i ≠ cell b j

instance (b : Board) : Decidable (Consistent b) :=
  Nat.decidableBallLT 81 (fun i _ => ∀ j, j < 81 → i ≠ j → related i j = true →
    cell b i ≠ 0 → cell b i ≠ cell b j)

/-- Every cell holds a value in `[0, 9]`. -/
def InRange (b : Board) : Prop := ∀ i, i < 81 → 0 ≤ cell b i ∧ cell b i ≤ 9

instance (b : Board) : Decidable (InRange b) :=
  inferInstanceAs (Decidable (∀ i, i < 81 → _))

/-- The cells before `p` are filled, and each differs from the earlier cells of
its row, column and box. -/
def PlacedUpTo (b : Board) (p : Nat) : Prop :=
  ∀ j, j < p → cell b j ≠ 0 ∧ ∀ i, i < j → related i j = true → cell b i ≠ cell b j

/-! ## Specification: solved grids and completions -/

/-- The digits `1, ..., 9`. -/
def digits : List Int := [1, 2, 3, 4, 5, 6, 7, 8, 9]

/-- Position `i` lies in row `k` (`k` in `0..8`). -/
def inRow (k i : Nat) : Bool := (x_y i).2 == k

/-- Position `i` lies in column `k` (`k` in `0..8`). -/
def inCol (k i : Nat) : Bool := (x_y i).1 == k

/-- Position `i` lies in box `k` (`k` in `0..8`, boxes numbered row by row). -/
def inBox (k i : Nat) : Bool := (x_y i).2 / 3 == k / 3 && (x_y i).1 / 3 == k % 3

/-- How many of the cells selected by `g` hold the value `d`. -/
def occurrences (b : Board) (g : Nat → Bool) (d : Int) : Nat :=
  ((List.range 81).filter (fun i => g i && cell b i == d)).length

/-- A full valid Sudoku grid: 81 cells, and every row, every column and every
3x3 box contains each digit `1..9` exactly once. -/
def Solved (b : Board) : Prop :=
  b.length = 81 ∧ ∀ k, k < 9 → ∀ d, d ∈ digits →
    occurrences b (inRow k) d = 1 ∧ occurrences b (inCol k) d = 1 ∧
      occurrences b (inBox k) d = 1

instance (b : Board) : Decidable (Solved b) :=
  inferInstanceAs (Decidable (_ ∧ _))

/-- The grid `s` is a valid completion of `g`: it is solved and agrees with `g`
on every non-zero cell of `g`. -/
def Completes (s g : Board) : Prop :=
  Solved s ∧ ∀ i, i < 81 → cell g i ≠ 0 → cell s i = cell g i

instance (s g : Board) : Decidable (Completes s g) :=
  inferInstanceAs (Decidable (_ ∧ ∀ i, i < 81 → _))

/-- The positions of the group selected by `g`. -/
def groupCells (g : Nat → Bool) : List Nat := (List.range 81).filter g

/-! ## Instrumented runs: the assignments and the recursive calls -/

/-- An assignment `board[ptr] = n`, recorded as `(ptr, n)`. -/
abbrev Write := Nat × Int

/-- The loop of `solve` as in `solveLoop`, threading next to the board the log
of the assignments `board[ptr] = n` performed so far (oldest first). -/
def solveLoopLog (next : Board → List Write → Option (Bool × Board × List Write))
    (ptr : Nat) : List Int → Board → List Write → Option (Bool × Board × List Write)
  | [], board, log => some (true, board, log)
  | n :: rest, board, log =>
    let board1 := board.set ptr n
    let log1 := log ++ [(ptr, n)]
    if cell board1 ptr == 0 then some (false, board1, log1)
    else if checkSpace board1 ptr == false then solveLoopLog next ptr rest board1 log1
    else
      match next board1 log1 with
      | none => none
      | some (true, board2, log2) => some (true, board2, log2)
      | some (false, board2, log2) => solveLoopLog next ptr rest board2 log2

/-- The function `solve` as in `solveFuel`, with the log of assignments. -/
def solveLogFuel : Nat → Board → Nat → List Write → Option (Bool × Board × List Write)
  | 0, _, _, _ => none
  | fuel + 1, board, ptr, log =>
    if ptr ≥ 81 then some (true, board, log)
    else if cell board ptr != 0 && checkSpace board ptr == true then
      solveLogFuel fuel board (ptr + 1) log
    else
      solveLoopLog (fun board1 log1 => solveLogFuel fuel board1 (ptr + 1) log1) ptr nums
        board log

/-- The call `solve(board, ptr)` with the log of its assignments, starting from
the log `log`. -/
def solveLog (board : Board) (ptr : Nat) (log : List Write) :
    Option (Bool × Board × List Write) :=
  solveLogFuel (81 - ptr + 1) board ptr log

/-- The number of recursive calls made by one run of the candidate loop of
`solveLoop` (a call that does not return is counted). -/
def loopCalls (next : Board → Option (Bool × Board)) (ptr : Nat) : List Int → Board → Nat
  | [], _ => 0
  | n :: rest, board =>
    let board1 := board.set ptr n
    if cell board1 ptr == 0 then 0
    else if checkSpace board1 ptr == false then loopCalls next ptr rest board1
    else
      match next board1 with
      | none => 1
      | some (true, _) => 1
      | some (false, board2) => 1 + loopCalls next ptr rest board2

/-- Forgetting the log. -/
def eraseLog (r : Bool × Board × List Write) : Bool × Board := (r.1, r.2.1)

/-- The writes of `solve` on a solved grid `s` with cell `k` blanked: the
candidates from 9 down to the digit of `s`, all at cell `k`. -/
def blankWrites (s : Board) (k : Nat) : List Write :=
  (nums.takeWhile (fun n => n != cell s k)).map (fun n => (k, n)) ++ [(k, cell s k)]

/-! ## Concrete grids -/

/-- A full valid grid. -/
def solvedGrid : Board :=
  [9, 8, 7, 6, 5, 4, 3, 2, 1,
   6, 5, 4, 3, 2, 1, 9, 8, 7,
   3, 2, 1, 9, 8, 7, 6, 5, 4,
   8, 9, 6, 7, 4, 5, 2, 1, 3,
   7, 4, 5, 2, 1, 3, 8, 9, 6,
   2, 1, 3, 8, 9, 6, 7, 4, 5,
   5, 7, 9, 4, 6, 8, 1, 3, 2,
   4, 6, 8, 1, 3, 2, 5, 7, 9,
   1, 3, 2, 5, 7, 9, 4, 6, 8]

/-- The all-empty grid. -/
def emptyGrid : Board := List.replicate 81 0

/-- A puzzle with 45 blanks whose completion is `solvedGrid`. -/
def puzzle : Board :=
  [0, 8, 0, 6, 0, 4, 0, 2, 0,
   6, 0, 4, 0, 2, 0, 9, 0, 7,
   0, 2, 0, 9, 0, 7, 0, 5, 0,
   8, 0, 6, 0, 4, 0, 2, 0, 3,
   0, 4, 0, 2, 0, 3, 0, 9, 0,
   2, 0, 3, 0, 9, 0, 7, 0, 5,
   0, 7, 0, 4, 0, 8, 0, 3, 0,
   4, 0, 8, 0, 3, 0, 5, 0, 9,
   0, 3, 0, 5, 0, 9, 0, 6, 0]

/-- The grid `solvedGrid` with the centre cell blanked. -/
def oneBlank : Board := solvedGrid.set 40 0

/-- The grid `solvedGrid` with cell 0 changed to the value of cell 1: the first
row holds the clue 8 twice. -/
def dupGrid : Board :=
  [8, 8, 7, 6, 5, 4, 3, 2, 1,
   6, 5, 4, 3, 2, 1, 9, 8, 7,
   3, 2, 1, 9, 8, 7, 6, 5, 4,
   8, 9, 6, 7, 4, 5, 2, 1, 3,
   7, 4, 5, 2, 1, 3, 8, 9, 6,
   2, 1, 3, 8, 9, 6, 7, 4, 5,
   5, 7, 9, 4, 6, 8, 1, 3, 2,
   4, 6, 8, 1, 3, 2, 5, 7, 9,
   1, 3, 2, 5, 7, 9, 4, 6, 8]

/-- A grid without collision and without completion: the last cell of the
first row can only take 9, which its column already holds. -/
def stuckGrid : Board :=
  [1, 2, 3, 4, 5, 6, 7, 8, 0] ++ List.replicate 8 0 ++ [9] ++ List.replicate 63 0

/-! ## Specification: box identifiers -/

/-- The box identifier `(row / 3, column / 3)` of a position. -/
def boxId (i : Nat) : Nat × Nat := ((x_y i).2 / 3, (x_y i).1 / 3)

/-! ## The program with another statement after the loop -/

/-- The loop of `solve` as in `solveLoop`, with the statement after the loop
returning `last` instead of `true`. -/
def solveLoopWith (last : Bool) (next : Board → Option (Bool × Board)) (ptr : Nat) :
    List Int → Board → Option (Bool × Board)
  | [], board => some (last, board)
  | n :: rest, board =>
    let board1 := board.set ptr n
    if cell board1 ptr == 0 then some (false, board1)
    else if checkSpace board1 ptr == false then solveLoopWith last next ptr rest board1
    else
      match next board1 with
      | none => none
      | some (true, board2) => some (true, board2)
      | some (false, board2) => solveLoopWith last next ptr rest board2

/-- The function `solve` as in `solveFuel`, with the statement after the loop
returning `last` instead of `true`. -/
def solveFuelWith (last : Bool) : Nat → Board → Nat → Option (Bool × Board)
  | 0, _, _ => none
  | fuel + 1, board, ptr =>
    if ptr ≥ 81 then some (true, board)
    else if cell board ptr != 0 && checkSpace board ptr == true then
      solveFuelWith last fuel board (ptr + 1)
    else solveLoopWith last (fun board1 => solveFuelWith last fuel board1 (ptr + 1)) ptr nums
      board

/-- The call `solve(board, ptr)` of the program whose statement after the loop
returns `last`. -/
def solveWith (last : Bool) (board : Board) (ptr : Nat) : Option (Bool × Board) :=
  solveFuelWith last (81 - ptr + 1) board ptr

/-! ## Specification: the lexicographic order of grids -/

/-- Lexicographic comparison of two grids, cell by cell in index order
`0, ..., 80`: `s` equals `r`, or is smaller at the first cell where they differ. -/
def LexLE (s r : Board) : Prop :=
  (∀ i, i < 81 → cell s i = cell r i) ∨
  ∃ k, k < 81 ∧ (∀ i, i < k → cell s i = cell r i) ∧ cell s k < cell r k

/-! ## Reading and printing boards -/

/-- A Go string is a sequence of bytes; it is embedded as a list of characters,
one per byte (the texts read and written here are ASCII). -/
abbrev GoString := List Char

/-- The smallest value of the Go type `int` (64 bits). -/
def intMin : Int := -(2 ^ 63)

/-- The largest value of the Go type `int` (64 bits). -/
def intMax : Int := 2 ^ 63 - 1

/-- The decimal digit `d` as a character. -/
def digitChar (d : Nat) : Char := Char.ofNat (48 + d)

/-- The decimal notation of a natural number, without leading zeros. -/
def fmtNat (n : Nat) : GoString :=
  if n = 0 then ['0'] else (Nat.digits 10 n).reverse.map digitChar

/-- What `fmt.Print(n)` writes for an `int`: the decimal notation, with a
leading `-` for a negative value. -/
def fmtInt (n : Int) : GoString :=
  if n < 0 then '-' :: fmtNat n.natAbs else fmtNat n.natAbs

/-- The loop `for i, n := range board` of `printBoard`, from index `i` on: the
text written. -/
def printCells : List Int → Nat → GoString
  | [], _ => []
  | n :: rest, i =>
    fmtInt n ++ (if i % 9 == 8 then ['\n'] else [',']) ++ printCells rest (i + 1)

/-- The function `printBoard`: the text written to standard output. -/
def printBoard (board : Board) : GoString := printCells board 0

/-- The value of a decimal digit character. -/
def charDigit (c : Char) : Option Nat :=
  if 48 ≤ c.toNat ∧ c.toNat ≤ 57 then some (c.toNat - 48) else none

/-- The value of a sequence of decimal digits, continuing from `acc`. -/
def parseDigits : GoString → Nat → Option Nat
  | [], acc => some acc
  | c :: cs, acc =>
    match charDigit c with
    | none => none
    | some d => parseDigits cs (acc * 10 + d)

/-- A non-empty sequence of decimal digits. -/
def parseNat (s : GoString) : Option Nat :=
  if s = [] then none else parseDigits s 0

/-- The function `strconv.Atoi` with its error reduced to `none`: an optional
sign `+` or `-`, then one or more decimal digits, and a value that fits the
type `int`. -/
def atoi (s : GoString) : Option Int :=
  match s with
  | [] => none
  | c :: ds =>
    if c = '-' then
      match parseNat ds with
      | none => none
      | some v => if -(v : Int) < intMin then none else some (-(v : Int))
    else
      match parseNat (if c = '+' then ds else c :: ds) with
      | none => none
      | some v => if intMax < (v : Int) then none else some (v : Int)

/-- The function `strings.Split(s, sep)` for a one-byte separator. -/
def stringsSplit (s : GoString) (sep : Char) : List GoString := s.splitOn sep

/-- A line without its trailing carriage return, if it has one. -/
def stripCR (line : GoString) : GoString :=
  if line.getLast? = some '\r' then line.dropLast else line

/-- The lines of a text: the pieces between newlines, without an empty piece
after the last newline. -/
def rawLines (text : GoString) : List GoString :=
  let parts := text.splitOn '\n'
  if parts.getLast? = some [] then parts.dropLast else parts

/-- The lines that `input.Scan()` and `input.Text()` yield for a scanner over
`text` (line splitting of `bufio.Scanner`): each line without its end-of-line
marker, up to the first line longer than `limit` bytes, at which `Scan` stops. -/
def scanLines (limit : Nat) (text : GoString) : List GoString :=
  ((rawLines text).takeWhile (fun line => line.length ≤ limit)).map stripCR

/-- How `buildBoard` can abort: `os.Exit(2)` after a token that `strconv.Atoi`
rejects, or the run-time panic of an index outside `[0, 80]`. -/
inductive Abort where
  | exit2
  | indexOutOfRange
  deriving DecidableEq

/-- The inner loop `for i, n := range strings.Split(input.Text(), ",")` of
`buildBoard` on line `l`, from token `i` on. -/
def buildRow (board : Board) (l : Nat) : List GoString → Nat → Except Abort Board
  | [], _ => .ok board
  | n :: rest, i =>
    match (if n = ['-'] then some 0 else atoi n) with
    | none => .error .exit2
    | some val =>
      if i + 9 * l < 81 then buildRow (board.set (i + 9 * l) val) l rest (i + 1)
      else .error .indexOutOfRange

/-- The loop `for input.Scan()` of `buildBoard`, from line `l` on. -/
def buildLines (board : Board) : List GoString → Nat → Except Abort Board
  | [], _ => .ok board
  | line :: rest, l =>
    match buildRow board l (stringsSplit line ',') 0 with
    | .error e => .error e
    | .ok board1 => buildLines board1 rest (l + 1)

/-- The function `buildBoard`; `lines` are the lines the scanner yields. -/
def buildBoard (lines : List GoString) (board : Board) : Except Abort Board :=
  buildLines board lines 0

/-! ## Rows of a board and their text -/

/-- The text of one printed row: the integers separated by commas. -/
def commaLine : List Int → GoString
  | [] => []
  | [a] => fmtInt a
  | a :: b :: rest => fmtInt a ++ ',' :: commaLine (b :: rest)

/-- The first `m` rows of 9 cells of a list of cells. -/
def rowsOf : Nat → List Int → List (List Int)
  | 0, _ => []
  | m + 1, cells => cells.take 9 :: rowsOf m (cells.drop 9)

/-- The board after the assignments `board[k] = x0, board[k+1] = x1, ...`. -/
def writeFrom (board : Board) : Nat → List Int → Board
  | _, [] => board
  | k, x :: rest => writeFrom (board.set k x) (k + 1) rest

/-- Every cell holds a value of the Go type `int`. -/
def InIntRange (b : Board) : Prop := ∀ v, v ∈ b → intMin ≤ v ∧ v ≤ intMax

instance (b : Board) : Decidable (InIntRange b) :=
  inferInstanceAs (Decidable (∀ v, v ∈ b → _))

/-! ## Tokens and sample inputs -/

/-- A token that `buildBoard` accepts: the placeholder `-`, or a token that
`strconv.Atoi` accepts (an optional sign and one or more decimal digits, with a
value that fits the type `int`). -/
def GoodToken (tok : GoString) : Prop := tok = ['-'] ∨ (atoi tok).isSome = true

instance (tok : GoString) : Decidable (GoodToken tok) :=
  inferInstanceAs (Decidable (_ ∨ _))

/-- The eight tokens `1, ..., 8` on one line. -/
def eightTokens : GoString :=
  ['1', ',', '2', ',', '3', ',', '4', ',', '5', ',', '6', ',', '7', ',', '8']

/-- Nine placeholders on one line. -/
def nineDashes : GoString := List.intersperse ',' (List.replicate 9 '-')

/-- Nine lines, the first with eight tokens only. -/
def shortLines : List GoString := eightTokens :: List.replicate 8 nineDashes

/-- One line with the tokens `1` and `x`. -/
def badLines : List GoString := [['1', ',', 'x']]

/-- Ten lines of nine placeholders. -/
def tenLines : List GoString := List.replicate 10 nineDashes

/-- The decimal integer `9223372036854775808`, one above the largest `int`. -/
def overflowToken : GoString :=
  ['9', '2', '2', '3', '3', '7', '2', '0', '3', '6', '8', '5', '4', '7', '7', '5', '8', '0', '8']

/-! ## Specification: the board that `buildBoard` returns -/

/-- The value `buildBoard` assigns for an accepted token: 0 for the placeholder
`-`, otherwise the integer `strconv.Atoi` reads. -/
def tokenValue (tok : GoString) : Int := if tok = ['-'] then 0 else (atoi tok).getD 0

/-- The token that belongs to cell `j`: token `j % 9` of line `j / 9`, when the
input has that line and the line has that token. -/
def tokenAt (lines : List GoString) (j : Nat) : Option GoString :=
  match lines[j / 9]? with
  | none => none
  | some line => (stringsSplit line ',')[j % 9]?

/-- The cell `j` of the board that `buildBoard` is to return: the value of the
token that belongs to the cell, or the value the cell had when no token does. -/
def expectedCell (lines : List GoString) (board : Board) (j : Nat) : Int :=
  match tokenAt lines j with
  | some tok => tokenValue tok
  | none => cell board j

/-! # Theorems -/

/-! ## The scan of `checkSpace` -/

theorem checkScan_eq_dupScan (px py : Nat) (cells : List Int) :
    ∀ (i : Nat) (row col sec : Seen),
      checkScan px py cells i row col sec =
        !(dupScan (fun k => (x_y k).2 == py) cells i row ||
          dupScan (fun k => (x_y k).1 == px) cells i col ||
          dupScan (fun k => inSameSector (x_y k).1 (x_y k).2 px py) cells i sec) := by
  induction cells with
  | nil => intro i row col sec; simp [checkScan, dupScan]
  | cons v rest ih =>
    intro i row col sec
    by_cases hv : v = 0
    · subst hv
      simp [checkScan, dupScan, ih]
    · have hv' : (v == 0) = false := by simpa using hv
      have hv2 : (v != 0) = true := by simpa using hv
      simp only [checkScan, dupScan, hv', hv2, Bool.true_and, axisIsInvalid]
      by_cases h1 : ((x_y i).2 == py) = true <;>
      by_cases h2 : ((x_y i).1 == px) = true <;>
      by_cases h3 : inSameSector (x_y i).1 (x_y i).2 px py = true <;>
      by_cases m1 : v ∈ row <;>
      by_cases m2 : v ∈ col <;>
      by_cases m3 : v ∈ sec <;>
      simp [h1, h2, h3, m1, m2, m3, ih]

theorem dupScan_iff (g : Nat → Bool) (cells : List Int) :
    ∀ (i : Nat) (seen : Seen),
      dupScan g cells i seen = true ↔
        ∃ a, a < cells.length ∧ cells.getD a 0 ≠ 0 ∧ g (i + a) = true ∧
          (cells.getD a 0 ∈ seen ∨
            ∃ a', a' < a ∧ g (i + a') = true ∧ cells.getD a' 0 = cells.getD a 0) := by
  induction cells with
  | nil => intro i seen; simp [dupScan]
  | cons v rest ih =>
    intro i seen
    by_cases hg : (v != 0 && g i) = true
    · have hv : v ≠ 0 := by
        simp only [Bool.and_eq_true, bne_iff_ne] at hg; exact hg.1
      have hgi : g i = true := by
        simp only [Bool.and_eq_true] at hg; exact hg.2
      by_cases hm : seen.contains v = true
      · simp only [dupScan, hg, hm, if_true, true_iff]
        refine ⟨0, by simp, by simpa using hv, by simpa using hgi, Or.inl ?_⟩
        simpa using hm
      · have hm' : v ∉ seen := by simpa using hm
        simp only [dupScan, hg, hm, if_true, Bool.false_eq_true, if_false]
        rw [ih]
        constructor
        · rintro ⟨a, ha, hnz, hga, hdup⟩
          refine ⟨a + 1, by simpa using ha, by simpa using hnz,
            by rw [← hga]; congr 1; omega, ?_⟩
          rcases hdup with hmem | ⟨a', ha', hga', heq⟩
          · rcases List.mem_cons.1 hmem with h | h
            · exact Or.inr ⟨0, by omega, by simpa using hgi, by simpa using h.symm⟩
            · exact Or.inl (by simpa using h)
          · exact Or.inr ⟨a' + 1, by omega, by rw [← hga']; congr 1; omega,
              by simpa using heq⟩
        · rintro ⟨a, ha, hnz, hga, hdup⟩
          cases a with
          | zero =>
            rcases hdup with hmem | ⟨a', ha', _, _⟩
            · exact absurd (by simpa using hmem) hm'
            · omega
          | succ a =>
            refine ⟨a, by simpa using ha, by simpa using hnz,
              by rw [← hga]; congr 1; omega, ?_⟩
            rcases hdup with hmem | ⟨a', ha', hga', heq⟩
            · exact Or.inl (List.mem_cons_of_mem _ (by simpa using hmem))
            · cases a' with
              | zero =>
                refine Or.inl ?_
                have : v = rest.getD a 0 := by simpa using heq
                rw [← this]; exact List.mem_cons_self _ _
              | succ a' =>
                exact Or.inr ⟨a', by omega, by rw [← hga']; congr 1; omega,
                  by simpa using heq⟩
    · have hg' : ¬ (v ≠ 0 ∧ g i = true) := by
        simpa only [Bool.and_eq_true, bne_iff_ne] using hg
      simp only [dupScan, hg, Bool.false_eq_true, if_false]
      rw [ih]
      constructor
      · rintro ⟨a, ha, hnz, hga, hdup⟩
        refine ⟨a + 1, by simpa using ha, by simpa using hnz,
          by rw [← hga]; congr 1; omega, ?_⟩
        rcases hdup with hmem | ⟨a', ha', hga', heq⟩
        · exact Or.inl (by simpa using hmem)
        · exact Or.inr ⟨a' + 1, by omega, by rw [← hga']; congr 1; omega,
            by simpa using heq⟩
      · rintro ⟨a, ha, hnz, hga, hdup⟩
        cases a with
        | zero =>
          exact absurd ⟨by simpa using hnz, by simpa using hga⟩ hg'
        | succ a =>
          refine ⟨a, by simpa using ha, by simpa using hnz,
            by rw [← hga]; congr 1; omega, ?_⟩
          rcases hdup with hmem | ⟨a', ha', hga', heq⟩
          · exact Or.inl (by simpa using hmem)
          · cases a' with
            | zero =>
              have h1 : v = rest.getD a 0 := by simpa using heq
              have h2 : rest.getD a 0 ≠ 0 := by simpa using hnz
              exact absurd ⟨by rw [h1]; exact h2, by simpa using hga'⟩ hg'
            | succ a' =>
              exact Or.inr ⟨a', by omega, by rw [← hga']; congr 1; omega,
                by simpa using heq⟩

theorem dupScan_board_iff (g : Nat → Bool) (b : Board) (hb : b.length = 81) :
    dupScan g b 0 [] = true ↔ ¬ GroupDistinct b g := by
  rw [dupScan_iff]
  unfold GroupDistinct cell
  constructor
  · rintro ⟨a, ha, hnz, hga, hdup⟩ hd
    rcases hdup with hmem | ⟨a', ha', hga', heq⟩
    · simp at hmem
    · rw [Nat.zero_add] at hga hga'
      exact hd a a' (by omega) (by omega) (by omega) hga hga' hnz heq.symm
  · intro hd
    push_neg at hd
    obtain ⟨i, j, hi, hj, hij, hgi, hgj, hnz, heq⟩ := hd
    rcases Nat.lt_or_gt_of_ne hij with h | h
    · exact ⟨j, by omega, by rw [← heq]; exact hnz, by simpa using hgj,
        Or.inr ⟨i, h, by simpa using hgi, heq⟩⟩
    · exact ⟨i, by omega, hnz, by simpa using hgi,
        Or.inr ⟨j, h, by simpa using hgj, heq.symm⟩⟩

theorem checkSpace_eq_true_iff (b : Board) (hb : b.length = 81) (ptr : Nat) :
    checkSpace b ptr = true ↔
      GroupDistinct b (fun i => sameRow i ptr) ∧
      GroupDistinct b (fun i => sameCol i ptr) ∧
      GroupDistinct b (fun i => sameBox i ptr) := by
  have hr := dupScan_board_iff (fun i => sameRow i ptr) b hb
  have hc := dupScan_board_iff (fun i => sameCol i ptr) b hb
  have hs := dupScan_board_iff (fun i => sameBox i ptr) b hb
  unfold sameRow at hr
  unfold sameCol at hc
  unfold sameBox at hs
  unfold checkSpace
  simp only [checkScan_eq_dupScan, Bool.not_eq_true', Bool.or_eq_false_iff]
  unfold sameRow sameCol sameBox
  rw [← not_not (a := GroupDistinct b fun i => (x_y i).2 == (x_y ptr).2),
    ← not_not (a := GroupDistinct b fun i => (x_y i).1 == (x_y ptr).1),
    ← not_not (a := GroupDistinct b fun i =>
      inSameSector (x_y i).1 (x_y i).2 (x_y ptr).1 (x_y ptr).2),
    ← hr, ← hc, ← hs]
  simp [and_assoc]

theorem checkSpace_eq_false_iff (b : Board) (hb : b.length = 81) (ptr : Nat) :
    checkSpace b ptr = false ↔ Collision b ptr := by
  rw [← Bool.not_eq_true, checkSpace_eq_true_iff b hb ptr]
  unfold GroupDistinct Collision
  constructor
  · intro h
    by_contra hc
    apply h
    refine ⟨?_, ?_, ?_⟩ <;>
    · intro i j hi hj hij hgi hgj hnz heq
      exact hc ⟨i, j, hi, hj, hij, heq, hnz, by simp [hgi, hgj]⟩
  · rintro ⟨i, j, hi, hj, hij, heq, hnz, hg⟩ ⟨h1, h2, h3⟩
    rcases hg with ⟨hgi, hgj⟩ | ⟨hgi, hgj⟩ | ⟨hgi, hgj⟩
    · exact h1 i j hi hj hij hgi hgj hnz heq
    · exact h2 i j hi hj hij hgi hgj hnz heq
    · exact h3 i j hi hj hij hgi hgj hnz heq

/-! ## Reading and writing cells -/

theorem cell_set_eq (b : Board) (p : Nat) (n : Int) (hp : p < b.length) :
    cell (b.set p n) p = n := by
  simp [cell, List.getD_eq_getElem?_getD, List.getElem?_set, hp]

theorem cell_set_ne (b : Board) (p i : Nat) (n : Int) (h : i ≠ p) :
    cell (b.set p n) i = cell b i := by
  simp [cell, List.getD_eq_getElem?_getD, List.getElem?_set, Ne.symm h]

theorem board_ext (a b : Board) (ha : a.length = 81) (hb : b.length = 81)
    (h : ∀ i, i < 81 → cell a i = cell b i) : a = b := by
  apply List.ext_getElem (by omega)
  intro i h1 h2
  have := h i (by omega)
  simpa [cell, List.getD_eq_getElem?_getD, List.getElem?_eq_getElem h1,
    List.getElem?_eq_getElem h2] using this

theorem set_cell_self (b : Board) (p : Nat) (hb : b.length = 81) :
    b.set p (cell b p) = b := by
  apply board_ext _ _ (by simpa using hb) hb
  intro i hi
  by_cases h : i = p
  · subst h
    rw [cell_set_eq _ _ _ (by omega)]
  · rw [cell_set_ne _ _ _ _ h]

/-! ## The three relations are equivalences -/

theorem sameRow_refl (i : Nat) : sameRow i i = true := by simp [sameRow]
theorem sameCol_refl (i : Nat) : sameCol i i = true := by simp [sameCol]
theorem sameBox_refl (i : Nat) : sameBox i i = true := by simp [sameBox, inSameSector]

theorem sameRow_symm {i j : Nat} (h : sameRow i j = true) : sameRow j i = true := by
  simp only [sameRow, beq_iff_eq] at *; exact h.symm
theorem sameCol_symm {i j : Nat} (h : sameCol i j = true) : sameCol j i = true := by
  simp only [sameCol, beq_iff_eq] at *; exact h.symm
theorem sameBox_symm {i j : Nat} (h : sameBox i j = true) : sameBox j i = true := by
  simp only [sameBox, inSameSector, Bool.and_eq_true, beq_iff_eq] at *
  exact ⟨h.1.symm, h.2.symm⟩

theorem sameRow_trans {i j k : Nat} (h1 : sameRow i j = true) (h2 : sameRow j k = true) :
    sameRow i k = true := by
  simp only [sameRow, beq_iff_eq] at *; exact h1.trans h2
theorem sameCol_trans {i j k : Nat} (h1 : sameCol i j = true) (h2 : sameCol j k = true) :
    sameCol i k = true := by
  simp only [sameCol, beq_iff_eq] at *; exact h1.trans h2
theorem sameBox_trans {i j k : Nat} (h1 : sameBox i j = true) (h2 : sameBox j k = true) :
    sameBox i k = true := by
  simp only [sameBox, inSameSector, Bool.and_eq_true, beq_iff_eq] at *
  exact ⟨h1.1.trans h2.1, h1.2.trans h2.2⟩

theorem related_symm {i j : Nat} (h : related i j = true) : related j i = true := by
  simp only [related, Bool.or_eq_true] at *
  rcases h with (h | h) | h
  · exact Or.inl (Or.inl (sameRow_symm h))
  · exact Or.inl (Or.inr (sameCol_symm h))
  · exact Or.inr (sameBox_symm h)

/-! ## Consistent boards -/

/-- An accepted position differs from every other cell of its row, column and
box, unless both are empty. -/
theorem checkSpace_distinct (b : Board) (hb : b.length = 81) (ptr : Nat) (hp : ptr < 81)
    (hc : checkSpace b ptr = true) (i : Nat) (hi : i < 81) (hne : i ≠ ptr)
    (hrel : related i ptr = true) (hnz : cell b i ≠ 0 ∨ cell b ptr ≠ 0) :
    cell b i ≠ cell b ptr := by
  intro heq
  have hnz1 : cell b i ≠ 0 := by
    rcases hnz with h | h
    · exact h
    · rw [heq]; exact h
  obtain ⟨h1, h2, h3⟩ := (checkSpace_eq_true_iff b hb ptr).1 hc
  simp only [related, Bool.or_eq_true] at hrel
  rcases hrel with (h | h) | h
  · exact h1 i ptr hi hp hne h (sameRow_refl ptr) hnz1 heq
  · exact h2 i ptr hi hp hne h (sameCol_refl ptr) hnz1 heq
  · exact h3 i ptr hi hp hne h (sameBox_refl ptr) hnz1 heq

theorem checkSpace_of_consistent (b : Board) (hb : b.length = 81) (ptr : Nat)
    (hc : Consistent b) : checkSpace b ptr = true := by
  rw [checkSpace_eq_true_iff b hb ptr]
  refine ⟨?_, ?_, ?_⟩
  · intro i j hi hj hij hgi hgj hnz
    exact hc i hi j hj hij
      (by simp [related, sameRow_trans hgi (sameRow_symm hgj)]) hnz
  · intro i j hi hj hij hgi hgj hnz
    exact hc i hi j hj hij
      (by simp [related, sameCol_trans hgi (sameCol_symm hgj)]) hnz
  · intro i j hi hj hij hgi hgj hnz
    exact hc i hi j hj hij
      (by simp [related, sameBox_trans hgi (sameBox_symm hgj)]) hnz

theorem consistent_set (b : Board) (hb : b.length = 81) (ptr : Nat) (hp : ptr < 81)
    (n : Int) (hc : Consistent b) (hchk : checkSpace (b.set ptr n) ptr = true) :
    Consistent (b.set ptr n) := by
  have hb1 : (b.set ptr n).length = 81 := by simpa using hb
  intro i hi j hj hij hrel hnz
  by_cases h1 : i = ptr
  · subst h1
    intro heq
    exact checkSpace_distinct _ hb1 i hp hchk j hj (Ne.symm hij) (related_symm hrel)
      (Or.inr hnz) heq.symm
  · by_cases h2 : j = ptr
    · subst h2
      exact checkSpace_distinct _ hb1 j hp hchk i hi hij hrel (Or.inl hnz)
    · rw [cell_set_ne _ _ _ _ h1] at hnz ⊢
      rw [cell_set_ne _ _ _ _ h2]
      exact hc i hi j hj hij hrel hnz

/-! ## Unfolding `solve` -/

theorem solve_ge (b : Board) (ptr : Nat) (h : 81 ≤ ptr) : solve b ptr = some (true, b) := by
  have hf : 81 - ptr + 1 = 0 + 1 := by omega
  rw [solve, hf, solveFuel]
  simp [h]

theorem solve_lt (b : Board) (ptr : Nat) (h : ptr < 81) :
    solve b ptr =
      if (cell b ptr != 0 && checkSpace b ptr == true) = true then solve b (ptr + 1)
      else solveLoop (fun b1 => solve b1 (ptr + 1)) ptr nums b := by
  have hf : 81 - ptr + 1 = (81 - (ptr + 1) + 1) + 1 := by omega
  have hn : ¬ ptr ≥ 81 := by omega
  rw [solve, hf, solveFuel]
  simp only [hn, if_false]
  rfl

/-- A proof rule for the candidate loop, for candidate lists that contain the
sentinel `0`: `I` holds of the board at the head of every iteration, `Q` of
every result, `P` of every candidate. -/
theorem solveLoop_rule (next : Board → Option (Bool × Board)) (ptr : Nat)
    (P : Int → Prop) (I : Board → Prop) (Q : Bool → Board → Prop)
    (hlen : ∀ b, I b → ptr < b.length)
    (hzero : ∀ b, I b → Q false (b.set ptr 0))
    (hskip : ∀ b n, I b → P n → n ≠ 0 → checkSpace (b.set ptr n) ptr = false →
      I (b.set ptr n))
    (hcall : ∀ b n r b2, I b → P n → n ≠ 0 → checkSpace (b.set ptr n) ptr = true →
      next (b.set ptr n) = some (r, b2) → (r = true → Q true b2) ∧ (r = false → I b2)) :
    ∀ (ns : List Int), (∀ n, n ∈ ns → P n) → 0 ∈ ns → ∀ b, I b → ∀ r b',
      solveLoop next ptr ns b = some (r, b') → Q r b' := by
  intro ns
  induction ns with
  | nil => intro _ h; simp at h
  | cons n rest ih =>
    intro hP h0 b hI r b' hres
    have hPn : P n := hP n (List.mem_cons_self _ _)
    have hPr : ∀ m, m ∈ rest → P m := fun m hm => hP m (List.mem_cons_of_mem _ hm)
    have hcell : cell (b.set ptr n) ptr = n := cell_set_eq b ptr n (hlen b hI)
    rw [solveLoop] at hres
    simp only [hcell] at hres
    by_cases hn : n = 0
    · subst hn
      simp only [beq_self_eq_true, if_true, Option.some.injEq, Prod.mk.injEq] at hres
      obtain ⟨rfl, rfl⟩ := hres
      exact hzero b hI
    · have hn' : (n == 0) = false := by simpa using hn
      have h0' : (0 : Int) ∈ rest := by
        rcases List.mem_cons.1 h0 with h | h
        · exact absurd h.symm hn
        · exact h
      simp only [hn', Bool.false_eq_true, if_false] at hres
      by_cases hc : checkSpace (b.set ptr n) ptr = true
      · simp only [hc, Bool.true_eq_false, beq_iff_eq, if_false] at hres
        cases hnx : next (b.set ptr n) with
        | none => simp [hnx] at hres
        | some res =>
          obtain ⟨r2, b2⟩ := res
          have hk := hcall b n r2 b2 hI hPn hn hc hnx
          cases r2 with
          | true =>
            simp only [hnx, Option.some.injEq, Prod.mk.injEq] at hres
            obtain ⟨rfl, rfl⟩ := hres
            exact hk.1 rfl
          | false =>
            simp only [hnx] at hres
            exact ih hPr h0' b2 (hk.2 rfl) r b' hres
      · have hc' : checkSpace (b.set ptr n) ptr = false := by simpa using hc
        simp only [hc', beq_self_eq_true, if_true] at hres
        exact ih hPr h0' _ (hskip b n hI hPn hn hc') r b' hres

theorem zero_mem_nums : (0 : Int) ∈ nums := by decide

/-! ## Termination -/

theorem solveLoop_returns (next : Board → Option (Bool × Board)) (ptr : Nat)
    (hnext : ∀ b, ∃ r, next b = some r) :
    ∀ (ns : List Int) (b : Board), ∃ r, solveLoop next ptr ns b = some r := by
  intro ns
  induction ns with
  | nil => intro b; exact ⟨_, rfl⟩
  | cons n rest ih =>
    intro b
    rw [solveLoop]
    by_cases h0 : (cell (b.set ptr n) ptr == 0) = true
    · simp only [h0, if_true]; exact ⟨_, rfl⟩
    · simp only [h0, Bool.false_eq_true, if_false]
      by_cases hc : (checkSpace (b.set ptr n) ptr == false) = true
      · simp only [hc, if_true]; exact ih _
      · simp only [hc, Bool.false_eq_true, if_false]
        obtain ⟨⟨r2, b2⟩, hnx⟩ := hnext (b.set ptr n)
        cases r2 with
        | true => simp only [hnx]; exact ⟨_, rfl⟩
        | false => simp only [hnx]; exact ih _

theorem solveFuel_returns :
    ∀ (fuel : Nat) (b : Board) (ptr : Nat), 81 - ptr < fuel →
      ∃ r, solveFuel fuel b ptr = some r := by
  intro fuel
  induction fuel with
  | zero => intro b ptr h; omega
  | succ fuel ih =>
    intro b ptr h
    rw [solveFuel]
    by_cases hp : ptr ≥ 81
    · simp only [hp, if_true]; exact ⟨_, rfl⟩
    · simp only [hp, if_false]
      by_cases hg : (cell b ptr != 0 && checkSpace b ptr == true) = true
      · simp only [hg, if_true]; exact ih b (ptr + 1) (by omega)
      · simp only [hg, Bool.false_eq_true, if_false]
        exact solveLoop_returns _ ptr (fun b1 => ih b1 (ptr + 1) (by omega)) nums b

theorem solve_returns (b : Board) (ptr : Nat) : ∃ r, solve b ptr = some r :=
  solveFuel_returns _ b ptr (by omega)

/-- More fuel than needed does not change the result. -/
theorem solveLoop_congr (next1 next2 : Board → Option (Bool × Board)) (ptr : Nat)
    (h : ∀ b r, next1 b = some r → next2 b = some r) :
    ∀ (ns : List Int) (b : Board) (r : Bool × Board),
      solveLoop next1 ptr ns b = some r → solveLoop next2 ptr ns b = some r := by
  intro ns
  induction ns with
  | nil => intro b r hr; simpa [solveLoop] using hr
  | cons n rest ih =>
    intro b r hr
    rw [solveLoop] at hr ⊢
    by_cases h0 : (cell (b.set ptr n) ptr == 0) = true
    · simpa only [h0, if_true] using hr
    · simp only [h0, Bool.false_eq_true, if_false] at hr ⊢
      by_cases hc : (checkSpace (b.set ptr n) ptr == false) = true
      · simp only [hc, if_true] at hr ⊢; exact ih _ _ hr
      · simp only [hc, Bool.false_eq_true, if_false] at hr ⊢
        cases hnx : next1 (b.set ptr n) with
        | none => simp [hnx] at hr
        | some res =>
          obtain ⟨r2, b2⟩ := res
          rw [h _ _ hnx]
          cases r2 with
          | true => simpa only [hnx] using hr
          | false =>
            simp only [hnx] at hr
            exact ih _ _ hr

theorem solveFuel_mono :
    ∀ (fuel : Nat) (b : Board) (ptr : Nat) (r : Bool × Board),
      solveFuel fuel b ptr = some r → ∀ extra, solveFuel (fuel + extra) b ptr = some r := by
  intro fuel
  induction fuel with
  | zero => intro b ptr r h; simp [solveFuel] at h
  | succ fuel ih =>
    intro b ptr r h extra
    have hf : fuel + 1 + extra = (fuel + extra) + 1 := by omega
    rw [hf]
    rw [solveFuel] at h ⊢
    by_cases hp : ptr ≥ 81
    · simpa only [hp, if_true] using h
    · simp only [hp, if_false] at h ⊢
      by_cases hg : (cell b ptr != 0 && checkSpace b ptr == true) = true
      · simp only [hg, if_true] at h ⊢; exact ih _ _ _ h extra
      · simp only [hg, Bool.false_eq_true, if_false] at h ⊢
        exact solveLoop_congr _ _ ptr (fun b1 r1 h1 => ih b1 (ptr + 1) r1 h1 extra) nums b r h

/-- The guard of the already-filled branch, split into its two tests. -/
theorem guard_iff (b : Board) (ptr : Nat) :
    (cell b ptr != 0 && checkSpace b ptr == true) = true ↔
      cell b ptr ≠ 0 ∧ checkSpace b ptr = true := by
  simp

/-! ## Frame: cells before the cursor, and the length -/

theorem solve_frame_aux :
    ∀ (k ptr : Nat), ptr + k = 81 → ∀ (b : Board) (r : Bool) (b' : Board),
      b.length = 81 → solve b ptr = some (r, b') →
      b'.length = 81 ∧ ∀ i, i < ptr → cell b' i = cell b i := by
  intro k
  induction k with
  | zero =>
    intro ptr hk b r b' hb h
    rw [solve_ge b ptr (by omega)] at h
    simp only [Option.some.injEq, Prod.mk.injEq] at h
    obtain ⟨-, rfl⟩ := h
    exact ⟨hb, fun _ _ => rfl⟩
  | succ k ih =>
    intro ptr hk b r b' hb h
    rw [solve_lt b ptr (by omega)] at h
    by_cases hg : (cell b ptr != 0 && checkSpace b ptr == true) = true
    · simp only [hg, if_true] at h
      obtain ⟨h1, h2⟩ := ih (ptr + 1) (by omega) b r b' hb h
      exact ⟨h1, fun i hi => h2 i (by omega)⟩
    · simp only [hg, Bool.false_eq_true, if_false] at h
      refine solveLoop_rule _ ptr (fun _ => True)
        (fun b1 => b1.length = 81 ∧ ∀ i, i < ptr → cell b1 i = cell b i)
        (fun _ b2 => b2.length = 81 ∧ ∀ i, i < ptr → cell b2 i = cell b i)
        ?_ ?_ ?_ ?_ nums (fun _ _ => trivial) zero_mem_nums b ⟨hb, fun _ _ => rfl⟩ r b' h
      · intro b1 h1; omega
      · intro b1 h1
        exact ⟨by simpa using h1.1, fun i hi => by
          rw [cell_set_ne _ _ _ _ (by omega), h1.2 i hi]⟩
      · intro b1 n h1 _ _ _
        exact ⟨by simpa using h1.1, fun i hi => by
          rw [cell_set_ne _ _ _ _ (by omega), h1.2 i hi]⟩
      · intro b1 n r2 b2 h1 _ _ _ hnx
        obtain ⟨h3, h4⟩ := ih (ptr + 1) (by omega) (b1.set ptr n) r2 b2
          (by simpa using h1.1) hnx
        have : b2.length = 81 ∧ ∀ i, i < ptr → cell b2 i = cell b i :=
          ⟨h3, fun i hi => by
            rw [h4 i (by omega), cell_set_ne _ _ _ _ (by omega), h1.2 i hi]⟩
        exact ⟨fun _ => this, fun _ => this⟩

theorem solve_frame (b : Board) (ptr : Nat) (r : Bool) (b' : Board)
    (hb : b.length = 81) (h : solve b ptr = some (r, b')) :
    b'.length = 81 ∧ ∀ i, i < ptr → cell b' i = cell b i := by
  by_cases hp : ptr ≤ 81
  · exact solve_frame_aux (81 - ptr) ptr (by omega) b r b' hb h
  · rw [solve_ge b ptr (by omega)] at h
    simp only [Option.some.injEq, Prod.mk.injEq] at h
    obtain ⟨-, rfl⟩ := h
    exact ⟨hb, fun _ _ => rfl⟩

/-! ## Range of the cell values -/

theorem nums_range : ∀ n, n ∈ nums → 0 ≤ n ∧ n ≤ 9 := by decide

theorem inRange_set (b : Board) (ptr : Nat) (n : Int) (hb : b.length = 81) (hp : ptr < 81)
    (h : InRange b) (hn : 0 ≤ n ∧ n ≤ 9) : InRange (b.set ptr n) := by
  intro i hi
  by_cases hip : i = ptr
  · subst hip; rw [cell_set_eq _ _ _ (by omega)]; exact hn
  · rw [cell_set_ne _ _ _ _ hip]; exact h i hi

theorem solve_inRange_aux :
    ∀ (k ptr : Nat), ptr + k = 81 → ∀ (b : Board) (r : Bool) (b' : Board),
      b.length = 81 → InRange b → solve b ptr = some (r, b') → InRange b' := by
  intro k
  induction k with
  | zero =>
    intro ptr hk b r b' hb hr h
    rw [solve_ge b ptr (by omega)] at h
    simp only [Option.some.injEq, Prod.mk.injEq] at h
    obtain ⟨-, rfl⟩ := h
    exact hr
  | succ k ih =>
    intro ptr hk b r b' hb hr h
    rw [solve_lt b ptr (by omega)] at h
    by_cases hg : (cell b ptr != 0 && checkSpace b ptr == true) = true
    · simp only [hg, if_true] at h
      exact ih (ptr + 1) (by omega) b r b' hb hr h
    · simp only [hg, Bool.false_eq_true, if_false] at h
      refine solveLoop_rule _ ptr (fun n => 0 ≤ n ∧ n ≤ 9)
        (fun b1 => b1.length = 81 ∧ InRange b1) (fun _ b2 => InRange b2)
        ?_ ?_ ?_ ?_ nums nums_range zero_mem_nums b ⟨hb, hr⟩ r b' h
      · intro b1 h1; omega
      · intro b1 h1
        exact inRange_set b1 ptr 0 h1.1 (by omega) h1.2 (by omega)
      · intro b1 n h1 hn _ _
        exact ⟨by simpa using h1.1, inRange_set b1 ptr n h1.1 (by omega) h1.2 hn⟩
      · intro b1 n r2 b2 h1 hn _ _ hnx
        have hb1 : (b1.set ptr n).length = 81 := by simpa using h1.1
        have h3 := ih (ptr + 1) (by omega) (b1.set ptr n) r2 b2 hb1
          (inRange_set b1 ptr n h1.1 (by omega) h1.2 hn) hnx
        exact ⟨fun _ => h3, fun _ => ⟨(solve_frame _ _ _ _ hb1 hnx).1, h3⟩⟩

theorem solve_inRange (b : Board) (r : Bool) (b' : Board) (hb : b.length = 81)
    (hr : InRange b) (h : solve b 0 = some (r, b')) : InRange b' :=
  solve_inRange_aux 81 0 (by omega) b r b' hb hr h

/-! ## Soundness: a `true` result leaves a board without collisions -/

theorem placed_congr (b b' : Board) (p : Nat) (h : ∀ i, i < p → cell b' i = cell b i)
    (hb : PlacedUpTo b p) : PlacedUpTo b' p := by
  intro j hj
  obtain ⟨h1, h2⟩ := hb j hj
  refine ⟨by rw [h j hj]; exact h1, fun i hi hrel => ?_⟩
  rw [h j hj, h i (by omega)]
  exact h2 i hi hrel

theorem placed_step (b : Board) (hb : b.length = 81) (ptr : Nat) (hp : ptr < 81)
    (h : PlacedUpTo b ptr) (hnz : cell b ptr ≠ 0) (hc : checkSpace b ptr = true) :
    PlacedUpTo b (ptr + 1) := by
  intro j hj
  by_cases hjp : j = ptr
  · subst hjp
    exact ⟨hnz, fun i hi hrel =>
      checkSpace_distinct b hb j hp hc i (by omega) (by omega) hrel (Or.inr hnz)⟩
  · exact h j (by omega)

theorem solve_sound_aux :
    ∀ (k ptr : Nat), ptr + k = 81 → ∀ (b : Board) (r : Bool) (b' : Board),
      b.length = 81 → PlacedUpTo b ptr → solve b ptr = some (r, b') → r = true →
      PlacedUpTo b' 81 := by
  intro k
  induction k with
  | zero =>
    intro ptr hk b r b' hb hpre h _
    rw [solve_ge b ptr (by omega)] at h
    simp only [Option.some.injEq, Prod.mk.injEq] at h
    obtain ⟨-, rfl⟩ := h
    have : ptr = 81 := by omega
    subst this
    exact hpre
  | succ k ih =>
    intro ptr hk b r b' hb hpre h
    have hp : ptr < 81 := by omega
    rw [solve_lt b ptr hp] at h
    by_cases hg : (cell b ptr != 0 && checkSpace b ptr == true) = true
    · simp only [hg, if_true] at h
      obtain ⟨h1, h2⟩ := (guard_iff b ptr).1 hg
      exact ih (ptr + 1) (by omega) b r b' hb (placed_step b hb ptr hp hpre h1 h2) h
    · simp only [hg, Bool.false_eq_true, if_false] at h
      refine solveLoop_rule _ ptr (fun _ => True)
        (fun b1 => b1.length = 81 ∧ PlacedUpTo b1 ptr)
        (fun r2 b2 => r2 = true → PlacedUpTo b2 81)
        ?_ ?_ ?_ ?_ nums (fun _ _ => trivial) zero_mem_nums b ⟨hb, hpre⟩ r b' h
      · intro b1 h1; omega
      · intro b1 _ hf; exact absurd hf (by decide)
      · intro b1 n h1 _ _ _
        exact ⟨by simpa using h1.1,
          placed_congr b1 _ ptr (fun i hi => cell_set_ne _ _ _ _ (by omega)) h1.2⟩
      · intro b1 n r2 b2 h1 _ hn hc hnx
        have hb1 : (b1.set ptr n).length = 81 := by simpa using h1.1
        have hpre1 : PlacedUpTo (b1.set ptr n) (ptr + 1) :=
          placed_step _ hb1 ptr hp
            (placed_congr b1 _ ptr (fun i hi => cell_set_ne _ _ _ _ (by omega)) h1.2)
            (by rw [cell_set_eq _ _ _ (by omega)]; exact hn) hc
        refine ⟨fun hr _ => ih (ptr + 1) (by omega) _ r2 b2 hb1 hpre1 hnx hr, fun _ => ?_⟩
        obtain ⟨h3, h4⟩ := solve_frame _ _ _ _ hb1 hnx
        exact ⟨h3, placed_congr _ b2 ptr (fun i hi => h4 i (by omega))
          (fun j hj => hpre1 j (by omega))⟩

theorem consistent_of_placed (b : Board) (h : PlacedUpTo b 81) :
    Consistent b ∧ ∀ i, i < 81 → cell b i ≠ 0 := by
  refine ⟨fun i hi j hj hij hrel _ => ?_, fun i hi => (h i hi).1⟩
  rcases Nat.lt_or_gt_of_ne hij with hlt | hgt
  · exact (h j hj).2 i hlt hrel
  · exact fun heq => (h i hi).2 j hgt (related_symm hrel) heq.symm

theorem placed_zero (b : Board) : PlacedUpTo b 0 := fun j hj => absurd hj (by omega)

/-! ## Consistent clues are never re-decided -/

theorem solve_consistent_aux :
    ∀ (k ptr : Nat), ptr + k = 81 → ∀ (b : Board) (r : Bool) (b' : Board),
      b.length = 81 → Consistent b → solve b ptr = some (r, b') →
      (r = false → b' = b) ∧ (r = true → ∀ i, i < 81 → cell b i ≠ 0 → cell b' i = cell b i) := by
  intro k
  induction k with
  | zero =>
    intro ptr hk b r b' hb hcons h
    rw [solve_ge b ptr (by omega)] at h
    simp only [Option.some.injEq, Prod.mk.injEq] at h
    obtain ⟨-, rfl⟩ := h
    exact ⟨fun _ => rfl, fun _ _ _ _ => rfl⟩
  | succ k ih =>
    intro ptr hk b r b' hb hcons h
    have hp : ptr < 81 := by omega
    rw [solve_lt b ptr hp] at h
    by_cases hg : (cell b ptr != 0 && checkSpace b ptr == true) = true
    · simp only [hg, if_true] at h
      exact ih (ptr + 1) (by omega) b r b' hb hcons h
    · have hz : cell b ptr = 0 := by
        by_contra hnz
        exact hg ((guard_iff b ptr).2 ⟨hnz, checkSpace_of_consistent b hb ptr hcons⟩)
      simp only [hg, Bool.false_eq_true, if_false] at h
      have hself : b.set ptr 0 = b := by
        have := set_cell_self b ptr hb
        rwa [hz] at this
      have hres := solveLoop_rule (fun b1 => solve b1 (ptr + 1)) ptr (fun _ => True)
        (fun b1 => b1.length = 81 ∧ b1.set ptr 0 = b)
        (fun r2 b2 => (r2 = false → b2 = b) ∧
          (r2 = true → ∀ i, i < 81 → cell b i ≠ 0 → cell b2 i = cell b i))
        ?_ ?_ ?_ ?_ nums (fun _ _ => trivial) zero_mem_nums b ⟨hb, hself⟩ r b' h
      · exact hres
      · intro b1 h1; omega
      · intro b1 h1
        exact ⟨fun _ => h1.2, fun hf => absurd hf (by decide)⟩
      · intro b1 n h1 _ _ _
        exact ⟨by simpa using h1.1, by rw [List.set_set]; exact h1.2⟩
      · intro b1 n r2 b2 h1 _ hn hc hnx
        have hb1 : (b1.set ptr n).length = 81 := by simpa using h1.1
        have heq : b1.set ptr n = b.set ptr n := by
          rw [← h1.2, List.set_set]
        rw [heq] at hc hnx hb1
        have hcons1 : Consistent (b.set ptr n) := consistent_set b hb ptr hp n hcons hc
        obtain ⟨h3, h4⟩ := ih (ptr + 1) (by omega) _ r2 b2 hb1 hcons1 hnx
        refine ⟨fun hr => ⟨fun hf => absurd hf (by decide), ?_⟩, fun hr => ?_⟩
        · intro _ i hi hnz
          have hip : i ≠ ptr := fun e => hnz (by rw [e]; exact hz)
          rw [h4 hr i hi (by rw [cell_set_ne _ _ _ _ hip]; exact hnz),
            cell_set_ne _ _ _ _ hip]
        · rw [h3 hr]
          exact ⟨hb1, by rw [List.set_set]; exact hself⟩

/-! ## Solved grids: counting the digits of a group -/

theorem mem_digits (v : Int) : v ∈ digits ↔ 1 ≤ v ∧ v ≤ 9 := by
  simp only [digits, List.mem_cons, List.mem_singleton, List.not_mem_nil, or_false]
  omega

theorem digits_card : digits.toFinset.card = 9 := by decide

theorem count_one_of_nodup (V : List Int) (hlen : V.length = 9) (hnd : V.Nodup)
    (hdig : ∀ v, v ∈ V → v ∈ digits) : ∀ d, d ∈ digits → V.count d = 1 := by
  intro d hd
  have hsub : V.toFinset ⊆ digits.toFinset := by
    intro v hv
    exact List.mem_toFinset.2 (hdig v (List.mem_toFinset.1 hv))
  have hcard : V.toFinset.card = 9 := by rw [List.toFinset_card_of_nodup hnd, hlen]
  have heq : V.toFinset = digits.toFinset :=
    Finset.eq_of_subset_of_card_le hsub (by rw [hcard, digits_card])
  have hmem : d ∈ V := by
    rw [← List.mem_toFinset, heq]; exact List.mem_toFinset.2 hd
  exact List.count_eq_one_of_mem hnd hmem

theorem nodup_of_count_one (V : List Int) (hlen : V.length = 9)
    (h : ∀ d, d ∈ digits → V.count d = 1) : V.Nodup ∧ ∀ v, v ∈ V → v ∈ digits := by
  have hsub : digits.toFinset ⊆ V.toFinset := by
    intro d hd
    have := h d (List.mem_toFinset.1 hd)
    exact List.mem_toFinset.2 (List.count_pos_iff.1 (by omega))
  have hle : V.toFinset.card ≤ 9 := by
    have := List.toFinset_card_le V
    omega
  have heq : digits.toFinset = V.toFinset :=
    Finset.eq_of_subset_of_card_le hsub (by rw [digits_card]; exact hle)
  have hdig : ∀ v, v ∈ V → v ∈ digits := by
    intro v hv
    rw [← List.mem_toFinset, heq]; exact List.mem_toFinset.2 hv
  refine ⟨List.nodup_iff_count_le_one.2 (fun a => ?_), hdig⟩
  by_cases ha : a ∈ V
  · rw [h a (hdig a ha)]
  · rw [List.count_eq_zero_of_not_mem ha]; omega

theorem mem_groupCells (g : Nat → Bool) (i : Nat) :
    i ∈ groupCells g ↔ i < 81 ∧ g i = true := by
  simp [groupCells]

theorem nodup_groupCells (g : Nat → Bool) : (groupCells g).Nodup :=
  (List.nodup_range 81).filter _

theorem occurrences_eq_count (b : Board) (g : Nat → Bool) (d : Int) :
    occurrences b g d = ((groupCells g).map (cell b)).count d := by
  unfold occurrences groupCells
  rw [List.count_eq_countP, List.countP_map, List.countP_eq_length_filter,
    List.filter_filter]
  congr 1
  apply List.filter_congr
  intro i _
  simp [Bool.and_comm]

theorem group_count_one (b : Board) (g : Nat → Bool) (hlen : (groupCells g).length = 9)
    (hdist : ∀ i j, i < 81 → j < 81 → g i = true → g j = true → cell b i = cell b j → i = j)
    (hdig : ∀ i, i < 81 → cell b i ∈ digits) :
    ∀ d, d ∈ digits → occurrences b g d = 1 := by
  intro d hd
  rw [occurrences_eq_count]
  apply count_one_of_nodup _ (by simpa using hlen) _ _ d hd
  · apply List.Nodup.map_on _ (nodup_groupCells g)
    intro i hi j hj heq
    rw [mem_groupCells] at hi hj
    exact hdist i j hi.1 hj.1 hi.2 hj.2 heq
  · intro v hv
    obtain ⟨i, hi, rfl⟩ := List.mem_map.1 hv
    exact hdig i ((mem_groupCells g i).1 hi).1

theorem group_distinct_of_count (b : Board) (g : Nat → Bool)
    (hlen : (groupCells g).length = 9) (h : ∀ d, d ∈ digits → occurrences b g d = 1) :
    (∀ i, i < 81 → g i = true → cell b i ∈ digits) ∧
    (∀ i j, i < 81 → j < 81 → g i = true → g j = true → cell b i = cell b j → i = j) := by
  have h' : ∀ d, d ∈ digits → ((groupCells g).map (cell b)).count d = 1 := by
    intro d hd; rw [← occurrences_eq_count]; exact h d hd
  obtain ⟨hnd, hdig⟩ := nodup_of_count_one _ (by simpa using hlen) h'
  refine ⟨fun i hi hg => hdig _ (List.mem_map.2 ⟨i, (mem_groupCells g i).2 ⟨hi, hg⟩, rfl⟩),
    fun i j hi hj hgi hgj heq => ?_⟩
  exact List.inj_on_of_nodup_map hnd ((mem_groupCells g i).2 ⟨hi, hgi⟩)
    ((mem_groupCells g j).2 ⟨hj, hgj⟩) heq

theorem row_length : ∀ k, k < 9 → (groupCells (inRow k)).length = 9 := by decide
theorem col_length : ∀ k, k < 9 → (groupCells (inCol k)).length = 9 := by decide
theorem box_length : ∀ k, k < 9 → (groupCells (inBox k)).length = 9 := by decide

theorem related_iff_group (i j : Nat) (hi : i < 81) :
    related i j = true ↔
      ∃ k, k < 9 ∧ ((inRow k i = true ∧ inRow k j = true) ∨
        (inCol k i = true ∧ inCol k j = true) ∨ (inBox k i = true ∧ inBox k j = true)) := by
  simp only [related, sameRow, sameCol, sameBox, inSameSector, inRow, inCol, inBox, x_y,
    Bool.or_eq_true, Bool.and_eq_true, beq_iff_eq]
  constructor
  · rintro ((h | h) | h)
    · exact ⟨i / 9, by omega, Or.inl ⟨rfl, h.symm⟩⟩
    · exact ⟨i % 9, by omega, Or.inr (Or.inl ⟨rfl, h.symm⟩)⟩
    · exact ⟨3 * (i / 9 / 3) + i % 9 / 3, by omega,
        Or.inr (Or.inr ⟨⟨by omega, by omega⟩, ⟨by omega, by omega⟩⟩)⟩
  · rintro ⟨k, _, h | h | h⟩
    · exact Or.inl (Or.inl (by omega))
    · exact Or.inl (Or.inr (by omega))
    · exact Or.inr ⟨by omega, by omega⟩

theorem solved_of_consistent (b : Board) (hb : b.length = 81) (hc : Consistent b)
    (hd : ∀ i, i < 81 → cell b i ∈ digits) : Solved b := by
  have hdist : ∀ i j, i < 81 → j < 81 → related i j = true → cell b i = cell b j → i = j := by
    intro i j hi hj hrel heq
    by_contra hij
    exact hc i hi j hj hij hrel (by have := (mem_digits _).1 (hd i hi); omega) heq
  refine ⟨hb, fun k hk d hdd => ⟨?_, ?_, ?_⟩⟩
  · exact group_count_one b _ (row_length k hk)
      (fun i j hi hj hgi hgj => hdist i j hi hj
        ((related_iff_group i j hi).2 ⟨k, hk, Or.inl ⟨hgi, hgj⟩⟩)) hd d hdd
  · exact group_count_one b _ (col_length k hk)
      (fun i j hi hj hgi hgj => hdist i j hi hj
        ((related_iff_group i j hi).2 ⟨k, hk, Or.inr (Or.inl ⟨hgi, hgj⟩)⟩)) hd d hdd
  · exact group_count_one b _ (box_length k hk)
      (fun i j hi hj hgi hgj => hdist i j hi hj
        ((related_iff_group i j hi).2 ⟨k, hk, Or.inr (Or.inr ⟨hgi, hgj⟩)⟩)) hd d hdd

theorem consistent_of_solved (b : Board) (h : Solved b) :
    Consistent b ∧ ∀ i, i < 81 → cell b i ∈ digits := by
  obtain ⟨_, hs⟩ := h
  constructor
  · intro i hi j hj hij hrel _ heq
    obtain ⟨k, hk, hg⟩ := (related_iff_group i j hi).1 hrel
    rcases hg with ⟨hgi, hgj⟩ | ⟨hgi, hgj⟩ | ⟨hgi, hgj⟩
    · exact hij ((group_distinct_of_count b _ (row_length k hk)
        (fun d hd => (hs k hk d hd).1)).2 i j hi hj hgi hgj heq)
    · exact hij ((group_distinct_of_count b _ (col_length k hk)
        (fun d hd => (hs k hk d hd).2.1)).2 i j hi hj hgi hgj heq)
    · exact hij ((group_distinct_of_count b _ (box_length k hk)
        (fun d hd => (hs k hk d hd).2.2)).2 i j hi hj hgi hgj heq)
  · intro i hi
    exact (group_distinct_of_count b _ (row_length (i / 9) (by omega))
      (fun d hd => (hs (i / 9) (by omega) d hd).1)).1 i hi (by simp [inRow, x_y])

/-- A board with a valid completion holds no collision. -/
theorem consistent_of_completes (s g : Board) (h : Completes s g) : Consistent g := by
  obtain ⟨hs, hag⟩ := h
  obtain ⟨hc, _⟩ := consistent_of_solved s hs
  intro i hi j hj hij hrel hnz heq
  have hnzj : cell g j ≠ 0 := by rw [← heq]; exact hnz
  apply hc i hi j hj hij hrel
  · rw [hag i hi hnz]; exact hnz
  · rw [hag i hi hnz, hag j hj hnzj]; exact heq

/-- A `true` result on a board with cells in `[0, 9]` is a solved board. -/
theorem solve_true_solved (g r : Board) (hg : g.length = 81) (hr : InRange g)
    (h : solve g 0 = some (true, r)) : Solved r := by
  have hpre := solve_sound_aux 81 0 (by omega) g true r hg (placed_zero g) h rfl
  obtain ⟨hc, hnz⟩ := consistent_of_placed r hpre
  have hrange := solve_inRange g true r hg hr h
  have hlen := (solve_frame g 0 true r hg h).1
  apply solved_of_consistent r hlen hc
  intro i hi
  have h1 := hrange i hi
  have h2 := hnz i hi
  rw [mem_digits]; omega

/-! ## Completeness -/

theorem completes_set (s b : Board) (ptr : Nat) (hs : Completes s b) :
    Completes s (b.set ptr (cell s ptr)) := by
  refine ⟨hs.1, fun i hi hnz => ?_⟩
  by_cases hip : i = ptr
  · subst hip
    by_cases hl : i < b.length
    · rw [cell_set_eq _ _ _ hl]
    · have : b.set i (cell s i) = b := by
        apply List.set_eq_of_length_le; omega
      rw [this] at hnz ⊢
      exact hs.2 i hi hnz
  · rw [cell_set_ne _ _ _ _ hip] at hnz ⊢
    exact hs.2 i hi hnz

theorem solveLoop_complete (next : Board → Option (Bool × Board)) (ptr : Nat)
    (hp : ptr < 81) (s b : Board) (hb : b.length = 81) (hcons : Consistent b)
    (hs : Completes s b)
    (hret : ∀ b1, ∃ r, next b1 = some r)
    (hkeep : ∀ b1 b2, b1.length = 81 → Consistent b1 → next b1 = some (false, b2) → b2 = b1)
    (hfind : ∀ b1, b1.length = 81 → Completes s b1 → ∃ b2, next b1 = some (true, b2)) :
    ∀ (ns : List Int), ns.Pairwise (fun x y => x > y) → cell s ptr ∈ ns →
      ∀ m, ∃ b', solveLoop next ptr ns (b.set ptr m) = some (true, b') := by
  have hdig : 0 < cell s ptr := by
    have := (mem_digits _).1 ((consistent_of_solved s hs.1).2 ptr hp)
    omega
  intro ns
  induction ns with
  | nil => intro _ h; simp at h
  | cons n rest ih =>
    intro hpw hmem m
    have hb1 : (b.set ptr n).length = 81 := by simpa using hb
    have hset : (b.set ptr m).set ptr n = b.set ptr n := List.set_set _ _ _ _
    have hcell : cell (b.set ptr n) ptr = n := cell_set_eq b ptr n (by omega)
    have hn : n ≠ 0 := by
      rcases List.mem_cons.1 hmem with h | h
      · omega
      · have := (List.pairwise_cons.1 hpw).1 _ h
        omega
    have hn' : (n == 0) = false := by simpa using hn
    rw [solveLoop]
    simp only [hset, hcell, hn', Bool.false_eq_true, if_false]
    by_cases heq : n = cell s ptr
    · have hcomp : Completes s (b.set ptr n) := by rw [heq]; exact completes_set s b ptr hs
      have hc : checkSpace (b.set ptr n) ptr = true :=
        checkSpace_of_consistent _ hb1 ptr (consistent_of_completes s _ hcomp)
      obtain ⟨b2, h2⟩ := hfind _ hb1 hcomp
      simp only [hc, Bool.true_eq_false, beq_iff_eq, if_false, h2]
      exact ⟨_, rfl⟩
    · have hmem' : cell s ptr ∈ rest := by
        rcases List.mem_cons.1 hmem with h | h
        · exact absurd h.symm heq
        · exact h
      have hpw' := (List.pairwise_cons.1 hpw).2
      by_cases hc : checkSpace (b.set ptr n) ptr = true
      · simp only [hc, Bool.true_eq_false, beq_iff_eq, if_false]
        obtain ⟨⟨r2, b2⟩, h2⟩ := hret (b.set ptr n)
        cases r2 with
        | true => simp only [h2]; exact ⟨_, rfl⟩
        | false =>
          simp only [h2]
          have := hkeep _ _ hb1 (consistent_set b hb ptr hp n hcons hc) h2
          rw [this]
          exact ih hpw' hmem' n
      · have hc' : checkSpace (b.set ptr n) ptr = false := by simpa using hc
        simp only [hc', beq_self_eq_true, if_true]
        exact ih hpw' hmem' n

theorem nums_sorted : nums.Pairwise (fun x y => x > y) := by decide

theorem digits_mem_nums : ∀ d, d ∈ digits → d ∈ nums := by decide

theorem solve_complete_aux :
    ∀ (k ptr : Nat), ptr + k = 81 → ∀ (s b : Board), b.length = 81 → Completes s b →
      ∃ b', solve b ptr = some (true, b') := by
  intro k
  induction k with
  | zero =>
    intro ptr hk s b hb hs
    exact ⟨b, solve_ge b ptr (by omega)⟩
  | succ k ih =>
    intro ptr hk s b hb hs
    have hp : ptr < 81 := by omega
    have hcons := consistent_of_completes s b hs
    rw [solve_lt b ptr hp]
    by_cases hg : (cell b ptr != 0 && checkSpace b ptr == true) = true
    · simp only [hg, if_true]
      exact ih (ptr + 1) (by omega) s b hb hs
    · have hz : cell b ptr = 0 := by
        by_contra hnz
        exact hg ((guard_iff b ptr).2 ⟨hnz, checkSpace_of_consistent b hb ptr hcons⟩)
      simp only [hg, Bool.false_eq_true, if_false]
      have hself : b.set ptr 0 = b := by
        have := set_cell_self b ptr hb
        rwa [hz] at this
      have := solveLoop_complete (fun b1 => solve b1 (ptr + 1)) ptr hp s b hb hcons hs
        (fun b1 => solve_returns b1 (ptr + 1))
        (fun b1 b2 h1 h2 h3 =>
          (solve_consistent_aux k (ptr + 1) (by omega) b1 false b2 h1 h2 h3).1 rfl)
        (fun b1 h1 h2 => ih (ptr + 1) (by omega) s b1 h1 h2)
        nums nums_sorted
        (digits_mem_nums _ ((consistent_of_solved s hs.1).2 ptr hp)) 0
      rwa [hself] at this

theorem solveLoopLog_erase (next : Board → Option (Bool × Board))
    (nextL : Board → List Write → Option (Bool × Board × List Write)) (ptr : Nat)
    (h : ∀ b log, (nextL b log).map eraseLog = next b) :
    ∀ (ns : List Int) (b : Board) (log : List Write),
      (solveLoopLog nextL ptr ns b log).map eraseLog = solveLoop next ptr ns b := by
  intro ns
  induction ns with
  | nil => intro b log; rfl
  | cons n rest ih =>
    intro b log
    rw [solveLoopLog, solveLoop]
    by_cases h0 : (cell (b.set ptr n) ptr == 0) = true
    · simp only [h0, if_true]; rfl
    · simp only [h0, Bool.false_eq_true, if_false]
      by_cases hc : (checkSpace (b.set ptr n) ptr == false) = true
      · simp only [hc, if_true]; exact ih _ _
      · simp only [hc, Bool.false_eq_true, if_false]
        have hn := h (b.set ptr n) (log ++ [(ptr, n)])
        cases hL : nextL (b.set ptr n) (log ++ [(ptr, n)]) with
        | none =>
          rw [hL] at hn
          simp only [Option.map_none'] at hn
          simp only [← hn]
          rfl
        | some res =>
          obtain ⟨r2, b2, l2⟩ := res
          rw [hL] at hn
          simp only [Option.map_some', eraseLog] at hn
          simp only [← hn]
          cases r2 with
          | true => rfl
          | false => exact ih _ _

theorem solveLogFuel_erase :
    ∀ (fuel : Nat) (b : Board) (ptr : Nat) (log : List Write),
      (solveLogFuel fuel b ptr log).map eraseLog = solveFuel fuel b ptr := by
  intro fuel
  induction fuel with
  | zero => intro b ptr log; rfl
  | succ fuel ih =>
    intro b ptr log
    rw [solveLogFuel, solveFuel]
    by_cases hp : ptr ≥ 81
    · simp only [hp, if_true]; rfl
    · simp only [hp, if_false]
      by_cases hg : (cell b ptr != 0 && checkSpace b ptr == true) = true
      · simp only [hg, if_true]; exact ih _ _ _
      · simp only [hg, Bool.false_eq_true, if_false]
        exact solveLoopLog_erase _ _ ptr (fun b1 l1 => ih b1 (ptr + 1) l1) nums b log

theorem solveLog_erase (b : Board) (ptr : Nat) (log : List Write) :
    (solveLog b ptr log).map eraseLog = solve b ptr :=
  solveLogFuel_erase _ b ptr log

theorem solveLog_ge (b : Board) (ptr : Nat) (log : List Write) (h : 81 ≤ ptr) :
    solveLog b ptr log = some (true, b, log) := by
  have hf : 81 - ptr + 1 = 0 + 1 := by omega
  rw [solveLog, hf, solveLogFuel]
  simp [h]

theorem solveLog_lt (b : Board) (ptr : Nat) (log : List Write) (h : ptr < 81) :
    solveLog b ptr log =
      if (cell b ptr != 0 && checkSpace b ptr == true) = true then solveLog b (ptr + 1) log
      else solveLoopLog (fun b1 l1 => solveLog b1 (ptr + 1) l1) ptr nums b log := by
  have hf : 81 - ptr + 1 = (81 - (ptr + 1) + 1) + 1 := by omega
  have hn : ¬ ptr ≥ 81 := by omega
  rw [solveLog, hf, solveLogFuel]
  simp only [hn, if_false]
  rfl

theorem loopCalls_le (next : Board → Option (Bool × Board)) (ptr : Nat) :
    ∀ (ns : List Int) (b : Board),
      loopCalls next ptr ns b ≤ (ns.filter (fun n => n != 0)).length := by
  intro ns
  induction ns with
  | nil => intro b; simp [loopCalls]
  | cons n rest ih =>
    intro b
    rw [loopCalls]
    by_cases h0 : (cell (b.set ptr n) ptr == 0) = true
    · simp only [h0, if_true]; omega
    · simp only [h0, Bool.false_eq_true, if_false]
      have hle : (rest.filter (fun n => n != 0)).length ≤
          ((n :: rest).filter (fun n => n != 0)).length := by
        rw [List.filter_cons]; split <;> simp
      by_cases hc : (checkSpace (b.set ptr n) ptr == false) = true
      · simp only [hc, if_true]
        exact le_trans (ih _) hle
      · simp only [hc, Bool.false_eq_true, if_false]
        have hn : n ≠ 0 := by
          intro hn
          subst hn
          apply h0
          by_cases hl : ptr < b.length
          · rw [cell_set_eq _ _ _ hl]; rfl
          · have hs : b.set ptr 0 = b := List.set_eq_of_length_le (by omega)
            rw [hs]
            simp [cell, List.getD_eq_getElem?_getD, List.getElem?_eq_none (by omega : b.length ≤ ptr)]
        have hlen : ((n :: rest).filter (fun n => n != 0)).length =
            (rest.filter (fun n => n != 0)).length + 1 := by
          rw [List.filter_cons]; simp [hn]
        have hpos : 1 ≤ ((n :: rest).filter (fun n => n != 0)).length := by omega
        cases hnx : next (b.set ptr n) with
        | none => simpa only [hnx] using hpos
        | some res =>
          obtain ⟨r2, b2⟩ := res
          cases r2 with
          | true => simpa only [hnx] using hpos
          | false =>
            simp only [hnx]
            have := ih b2
            omega

/-! ## Full grids and grids with one blank -/

theorem occurrences_exists (b : Board) (g : Nat → Bool) (d : Int)
    (h : occurrences b g d = 1) : ∃ j, j < 81 ∧ g j = true ∧ cell b j = d := by
  unfold occurrences at h
  have hpos : 0 < ((List.range 81).filter (fun i => g i && cell b i == d)).length := by omega
  obtain ⟨j, hj⟩ := List.exists_mem_of_length_pos hpos
  simp only [List.mem_filter, List.mem_range, Bool.and_eq_true, beq_iff_eq] at hj
  exact ⟨j, hj.1, hj.2.1, hj.2.2⟩

/-- In a solved grid, any other digit written into a cell is rejected. -/
theorem wrong_digit_rejected (s : Board) (hs : Solved s) (k : Nat) (hk : k < 81) (n : Int)
    (hn : n ∈ digits) (hne : n ≠ cell s k) : checkSpace (s.set k n) k = false := by
  have hlen : (s.set k n).length = 81 := by simpa using hs.1
  rw [checkSpace_eq_false_iff _ hlen]
  obtain ⟨j, hj, hgj, hcj⟩ := occurrences_exists s _ n (hs.2 (k / 9) (by omega) n hn).1
  have hjk : j ≠ k := fun e => hne (by rw [← hcj, e])
  have hn0 : n ≠ 0 := by have := (mem_digits n).1 hn; omega
  have hks : k < s.length := by have := hs.1; omega
  refine ⟨k, j, hk, hj, Ne.symm hjk, ?_, ?_, Or.inl ⟨sameRow_refl k, ?_⟩⟩
  · rw [cell_set_eq _ _ _ hks, cell_set_ne _ _ _ _ hjk, hcj]
  · rw [cell_set_eq _ _ _ hks]; exact hn0
  · simpa [sameRow, inRow, x_y] using hgj

theorem guard_of_solved (g : Board) (h : Solved g) (ptr : Nat) (hp : ptr < 81) :
    (cell g ptr != 0 && checkSpace g ptr == true) = true := by
  obtain ⟨hc, hd⟩ := consistent_of_solved g h
  rw [guard_iff]
  refine ⟨?_, checkSpace_of_consistent g h.1 ptr hc⟩
  have := (mem_digits _).1 (hd ptr hp)
  omega

theorem solveLog_solved_aux (g : Board) (h : Solved g) :
    ∀ (k ptr : Nat), ptr + k = 81 → ∀ log, solveLog g ptr log = some (true, g, log) := by
  intro k
  induction k with
  | zero => intro ptr hk log; exact solveLog_ge g ptr log (by omega)
  | succ k ih =>
    intro ptr hk log
    rw [solveLog_lt g ptr log (by omega)]
    simp only [guard_of_solved g h ptr (by omega), if_true]
    exact ih (ptr + 1) (by omega) log

theorem solveLoopLog_one_blank (s : Board) (hs : Solved s) (k : Nat) (hk : k < 81)
    (nextL : Board → List Write → Option (Bool × Board × List Write))
    (hnext : ∀ log, nextL s log = some (true, s, log)) :
    ∀ (ns : List Int), ns.Pairwise (fun x y => x > y) → (∀ n, n ∈ ns → n ∈ nums) →
      cell s k ∈ ns → ∀ (m : Int) (log : List Write),
      solveLoopLog nextL k ns (s.set k m) log =
        some (true, s, log ++
          ((ns.takeWhile (fun n => n != cell s k)).map (fun n => (k, n)) ++
            [(k, cell s k)])) := by
  have hd := (consistent_of_solved s hs).2 k hk
  have hdig : 0 < cell s k := by have := (mem_digits _).1 hd; omega
  intro ns
  induction ns with
  | nil => intro _ _ h; simp at h
  | cons n rest ih =>
    intro hpw hnums hmem m log
    have hset : (s.set k m).set k n = s.set k n := List.set_set _ _ _ _
    have hcell : cell (s.set k n) k = n := cell_set_eq s k n (by have := hs.1; omega)
    have hn : n ≠ 0 := by
      rcases List.mem_cons.1 hmem with h | h
      · omega
      · have := (List.pairwise_cons.1 hpw).1 _ h
        omega
    have hn' : (n == 0) = false := by simpa using hn
    rw [solveLoopLog]
    simp only [hset, hcell, hn', Bool.false_eq_true, if_false]
    by_cases heq : n = cell s k
    · have hself : s.set k n = s := by rw [heq]; exact set_cell_self s k hs.1
      have hc : checkSpace s k = true :=
        checkSpace_of_consistent s hs.1 k (consistent_of_solved s hs).1
      simp only [hself, hc, Bool.true_eq_false, beq_iff_eq, if_false, hnext]
      simp [List.takeWhile, heq]
    · have hmem' : cell s k ∈ rest := by
        rcases List.mem_cons.1 hmem with h | h
        · exact absurd h.symm heq
        · exact h
      have hnd : n ∈ digits := by
        have h1 := nums_range n (hnums n (List.mem_cons_self _ _))
        rw [mem_digits]; omega
      have hc : checkSpace (s.set k n) k = false := wrong_digit_rejected s hs k hk n hnd heq
      simp only [hc, beq_self_eq_true, if_true]
      rw [ih (List.pairwise_cons.1 hpw).2 (fun x hx => hnums x (List.mem_cons_of_mem _ hx))
        hmem' n]
      have hb : (n != cell s k) = true := by simpa using heq
      simp [List.takeWhile, hb]

theorem completes_blank (s : Board) (hs : Solved s) (k : Nat) : Completes s (s.set k 0) := by
  refine ⟨hs, fun i _ hnz => ?_⟩
  by_cases hik : i = k
  · subst hik
    by_cases hl : i < s.length
    · rw [cell_set_eq _ _ _ hl] at hnz; exact absurd rfl hnz
    · rw [List.set_eq_of_length_le (by omega)]
  · rw [cell_set_ne _ _ _ _ hik]

theorem solveLog_one_blank_aux (s : Board) (hs : Solved s) (k : Nat) (hk : k < 81) :
    ∀ (j ptr : Nat), ptr + j = k → ∀ log,
      solveLog (s.set k 0) ptr log = some (true, s, log ++ blankWrites s k) := by
  have hlen : (s.set k 0).length = 81 := by simpa using hs.1
  have hcons : Consistent (s.set k 0) := consistent_of_completes s _ (completes_blank s hs k)
  have hd := (consistent_of_solved s hs).2
  intro j
  induction j with
  | zero =>
    intro ptr hj log
    have hpk : ptr = k := by omega
    subst hpk
    rw [solveLog_lt _ ptr log hk]
    have hz : cell (s.set ptr 0) ptr = 0 := cell_set_eq s ptr 0 (by have := hs.1; omega)
    have hg : ¬ (cell (s.set ptr 0) ptr != 0 && checkSpace (s.set ptr 0) ptr == true) = true := by
      rw [guard_iff]; exact fun h => h.1 hz
    simp only [hg, if_false]
    exact solveLoopLog_one_blank s hs ptr hk _
      (fun l => solveLog_solved_aux s hs (81 - (ptr + 1)) (ptr + 1) (by omega) l)
      nums nums_sorted (fun _ h => h) (digits_mem_nums _ (hd ptr hk)) 0 log
  | succ j ih =>
    intro ptr hj log
    rw [solveLog_lt _ ptr log (by omega)]
    have hg : (cell (s.set k 0) ptr != 0 && checkSpace (s.set k 0) ptr == true) = true := by
      rw [guard_iff]
      refine ⟨?_, checkSpace_of_consistent _ hlen ptr hcons⟩
      rw [cell_set_ne _ _ _ _ (by omega)]
      have := (mem_digits _).1 (hd ptr (by omega))
      omega
    simp only [hg, if_true]
    exact ih (ptr + 1) (by omega) log

/-- A solved grid with one cell blanked has only the grid itself as completion. -/
theorem one_blank_unique (s : Board) (hs : Solved s) (k : Nat) (hk : k < 81) (s' : Board)
    (h : Completes s' (s.set k 0)) : s' = s := by
  have hd := (consistent_of_solved s hs).2
  have hag : ∀ i, i < 81 → i ≠ k → cell s' i = cell s i := by
    intro i hi hik
    have := h.2 i hi (by
      rw [cell_set_ne _ _ _ _ hik]
      have := (mem_digits _).1 (hd i hi)
      omega)
    rwa [cell_set_ne _ _ _ _ hik] at this
  have hk' : cell s' k = cell s k := by
    by_contra hne
    have hrej := wrong_digit_rejected s hs k hk (cell s' k)
      ((consistent_of_solved s' h.1).2 k hk) hne
    have heq : s.set k (cell s' k) = s' := by
      apply board_ext _ _ (by simpa using hs.1) h.1.1
      intro i hi
      by_cases hik : i = k
      · subst hik; rw [cell_set_eq _ _ _ (by have := hs.1; omega)]
      · rw [cell_set_ne _ _ _ _ hik, hag i hi hik]
    rw [heq, checkSpace_of_consistent s' h.1.1 k (consistent_of_solved s' h.1).1] at hrej
    exact absurd hrej (by decide)
  apply board_ext _ _ h.1.1 hs.1
  intro i hi
  by_cases hik : i = k
  · subst hik; exact hk'
  · exact hag i hi hik

/-! ## Facts about the concrete grids -/

set_option maxRecDepth 100000 in
theorem solvedGrid_solved : Solved solvedGrid := by decide!

set_option maxRecDepth 100000 in
theorem puzzle_completes : Completes solvedGrid puzzle :=
  ⟨solvedGrid_solved, by decide!⟩

set_option maxRecDepth 100000 in
theorem puzzle_inRange : InRange puzzle := by decide!

set_option maxRecDepth 1000000 in
theorem solve_puzzle : solve puzzle 0 = some (true, solvedGrid) := by decide!

set_option maxRecDepth 100000 in
theorem oneBlank_inRange : InRange oneBlank := by decide!

set_option maxRecDepth 100000 in
theorem stuckGrid_inRange : InRange stuckGrid := by decide!

set_option maxRecDepth 100000 in
theorem stuckGrid_consistent : Consistent stuckGrid := by decide!

theorem stuckGrid_unsolvable : ¬ ∃ s, Completes s stuckGrid := by
  rintro ⟨s, hs, hag⟩
  obtain ⟨hc, hd⟩ := consistent_of_solved s hs
  have h8 := (mem_digits _).1 (hd 8 (by decide))
  have e0 := hag 0 (by decide) (by decide)
  have e1 := hag 1 (by decide) (by decide)
  have e2 := hag 2 (by decide) (by decide)
  have e3 := hag 3 (by decide) (by decide)
  have e4 := hag 4 (by decide) (by decide)
  have e5 := hag 5 (by decide) (by decide)
  have e6 := hag 6 (by decide) (by decide)
  have e7 := hag 7 (by decide) (by decide)
  have e17 := hag 17 (by decide) (by decide)
  have c0 := hc 0 (by decide) 8 (by decide) (by decide) (by decide)
  have c1 := hc 1 (by decide) 8 (by decide) (by decide) (by decide)
  have c2 := hc 2 (by decide) 8 (by decide) (by decide) (by decide)
  have c3 := hc 3 (by decide) 8 (by decide) (by decide) (by decide)
  have c4 := hc 4 (by decide) 8 (by decide) (by decide) (by decide)
  have c5 := hc 5 (by decide) 8 (by decide) (by decide) (by decide)
  have c6 := hc 6 (by decide) 8 (by decide) (by decide) (by decide)
  have c7 := hc 7 (by decide) 8 (by decide) (by decide) (by decide)
  have c17 := hc 17 (by decide) 8 (by decide) (by decide) (by decide)
  have v0 : cell stuckGrid 0 = 1 := by decide
  have v1 : cell stuckGrid 1 = 2 := by decide
  have v2 : cell stuckGrid 2 = 3 := by decide
  have v3 : cell stuckGrid 3 = 4 := by decide
  have v4 : cell stuckGrid 4 = 5 := by decide
  have v5 : cell stuckGrid 5 = 6 := by decide
  have v6 : cell stuckGrid 6 = 7 := by decide
  have v7 : cell stuckGrid 7 = 8 := by decide
  have v17 : cell stuckGrid 17 = 9 := by decide
  rw [e0, v0] at c0
  rw [e1, v1] at c1
  rw [e2, v2] at c2
  rw [e3, v3] at c3
  rw [e4, v4] at c4
  rw [e5, v5] at c5
  rw [e6, v6] at c6
  rw [e7, v7] at c7
  rw [e17, v17] at c17
  have := c0 (by decide)
  have := c1 (by decide)
  have := c2 (by decide)
  have := c3 (by decide)
  have := c4 (by decide)
  have := c5 (by decide)
  have := c6 (by decide)
  have := c7 (by decide)
  have := c17 (by decide)
  omega

set_option maxRecDepth 100000 in
theorem dupGrid_inRange : InRange dupGrid := by decide!

set_option maxRecDepth 1000000 in
theorem solve_dupGrid : solve dupGrid 0 = some (true, solvedGrid) := by decide!

theorem dupGrid_unsolvable : ¬ ∃ s, Completes s dupGrid := by
  rintro ⟨s, hs⟩
  exact consistent_of_completes s dupGrid hs 0 (by decide) 1 (by decide) (by decide)
    (by decide) (by decide) (by decide)

/-- A board without collision: `solve` answers `true` exactly when a completion
exists, and then leaves one behind. -/
theorem solve_true_completes (g r : Board) (hlen : g.length = 81) (hrange : InRange g)
    (hcons : Consistent g) (h : solve g 0 = some (true, r)) : Completes r g :=
  ⟨solve_true_solved g r hlen hrange h,
    (solve_consistent_aux 81 0 (by omega) g true r hlen hcons h).2 rfl⟩

/-! ## Coordinates and boxes -/

theorem sameBox_iff_boxId (a b : Nat) : sameBox a b = true ↔ boxId a = boxId b := by
  simp only [sameBox, inSameSector, boxId, Bool.and_eq_true, beq_iff_eq, Prod.mk.injEq]
  exact and_comm

theorem boxId_count : ((List.range 81).map boxId).dedup.length = 9 := by decide

theorem box_class_size :
    ∀ a, a < 81 → ((List.range 81).filter (fun b => sameBox a b)).length = 9 := by decide

/-! ## Assignments never fall before the cursor -/

theorem solveLoopLog_writes
    (nextL : Board → List Write → Option (Bool × Board × List Write)) (ptr : Nat)
    (hnext : ∀ b l r b' l', nextL b l = some (r, b', l') →
      ∃ w, l' = l ++ w ∧ ∀ x, x ∈ w → ptr + 1 ≤ x.1) :
    ∀ (ns : List Int) (b : Board) (l : List Write) (r : Bool) (b' : Board) (l' : List Write),
      solveLoopLog nextL ptr ns b l = some (r, b', l') →
      ∃ w, l' = l ++ w ∧ ∀ x, x ∈ w → ptr ≤ x.1 := by
  intro ns
  induction ns with
  | nil =>
    intro b l r b' l' h
    simp only [solveLoopLog, Option.some.injEq, Prod.mk.injEq] at h
    exact ⟨[], by simp [h.2.2], by simp⟩
  | cons n rest ih =>
    intro b l r b' l' h
    have hstep : ∀ w, (∀ x, x ∈ w → ptr ≤ x.1) →
        ∀ x, x ∈ (ptr, n) :: w → ptr ≤ x.1 := by
      intro w hw x hx
      rcases List.mem_cons.1 hx with rfl | hx
      · exact le_refl _
      · exact hw x hx
    rw [solveLoopLog] at h
    by_cases h0 : (cell (b.set ptr n) ptr == 0) = true
    · simp only [h0, if_true, Option.some.injEq, Prod.mk.injEq] at h
      exact ⟨[(ptr, n)], h.2.2.symm, hstep [] (by simp)⟩
    · simp only [h0, Bool.false_eq_true, if_false] at h
      by_cases hc : (checkSpace (b.set ptr n) ptr == false) = true
      · simp only [hc, if_true] at h
        obtain ⟨w, hw, hmem⟩ := ih _ _ _ _ _ h
        exact ⟨(ptr, n) :: w, by rw [hw]; simp, hstep w hmem⟩
      · simp only [hc, Bool.false_eq_true, if_false] at h
        cases hnx : nextL (b.set ptr n) (l ++ [(ptr, n)]) with
        | none => simp [hnx] at h
        | some res =>
          obtain ⟨r2, b2, l2⟩ := res
          obtain ⟨w2, hw2, hmem2⟩ := hnext _ _ _ _ _ hnx
          have hmem2' : ∀ x, x ∈ w2 → ptr ≤ x.1 := fun x hx => by
            have := hmem2 x hx; omega
          cases r2 with
          | true =>
            simp only [hnx, Option.some.injEq, Prod.mk.injEq] at h
            exact ⟨(ptr, n) :: w2, by rw [← h.2.2, hw2]; simp, hstep w2 hmem2'⟩
          | false =>
            simp only [hnx] at h
            obtain ⟨w, hw, hmem⟩ := ih _ _ _ _ _ h
            refine ⟨(ptr, n) :: (w2 ++ w), by rw [hw, hw2]; simp, hstep _ ?_⟩
            intro x hx
            rcases List.mem_append.1 hx with hx | hx
            · exact hmem2' x hx
            · exact hmem x hx

theorem solveLogFuel_writes :
    ∀ (fuel : Nat) (b : Board) (ptr : Nat) (l : List Write) (r : Bool) (b' : Board)
      (l' : List Write), solveLogFuel fuel b ptr l = some (r, b', l') →
      ∃ w, l' = l ++ w ∧ ∀ x, x ∈ w → ptr ≤ x.1 := by
  intro fuel
  induction fuel with
  | zero => intro b ptr l r b' l' h; simp [solveLogFuel] at h
  | succ fuel ih =>
    intro b ptr l r b' l' h
    rw [solveLogFuel] at h
    by_cases hp : ptr ≥ 81
    · simp only [hp, if_true, Option.some.injEq, Prod.mk.injEq] at h
      exact ⟨[], by simp [h.2.2], by simp⟩
    · simp only [hp, if_false] at h
      by_cases hg : (cell b ptr != 0 && checkSpace b ptr == true) = true
      · simp only [hg, if_true] at h
        obtain ⟨w, hw, hmem⟩ := ih _ _ _ _ _ _ h
        exact ⟨w, hw, fun x hx => by have := hmem x hx; omega⟩
      · simp only [hg, Bool.false_eq_true, if_false] at h
        exact solveLoopLog_writes _ ptr (fun b1 l1 r1 b1' l1' h1 => ih _ _ _ _ _ _ h1)
          nums b l r b' l' h

theorem solveLog_returns (b : Board) (ptr : Nat) (l : List Write) :
    ∃ r b' l', solveLog b ptr l = some (r, b', l') ∧ solve b ptr = some (r, b') := by
  obtain ⟨⟨r, b'⟩, hr⟩ := solve_returns b ptr
  have he := solveLog_erase b ptr l
  rw [hr] at he
  cases hl : solveLog b ptr l with
  | none => rw [hl] at he; simp at he
  | some res =>
    obtain ⟨r2, b2, l2⟩ := res
    rw [hl] at he
    simp only [Option.map_some', eraseLog, Option.some.injEq, Prod.mk.injEq] at he
    exact ⟨r2, b2, l2, rfl, by rw [hr, he.1, he.2]⟩

set_option maxRecDepth 100000 in
theorem solve_stuckGrid : solve stuckGrid 0 = some (false, stuckGrid) := by decide!

/-! ## The statement after the candidate loop -/

/-- A candidate that is read back as non-zero is not the sentinel. -/
theorem candidate_ne_zero (b : Board) (ptr : Nat) (n : Int)
    (h : ¬ (cell (b.set ptr n) ptr == 0) = true) : n ≠ 0 := by
  intro hn
  subst hn
  apply h
  by_cases hl : ptr < b.length
  · rw [cell_set_eq _ _ _ hl]; rfl
  · have hs : b.set ptr 0 = b := List.set_eq_of_length_le (by omega)
    rw [hs]
    simp [cell, List.getD_eq_getElem?_getD, List.getElem?_eq_none (by omega : b.length ≤ ptr)]

theorem solveLoopWith_eq (last : Bool) (next : Board → Option (Bool × Board)) (ptr : Nat) :
    ∀ (ns : List Int), 0 ∈ ns → ∀ (b : Board),
      solveLoopWith last next ptr ns b = solveLoop next ptr ns b := by
  intro ns
  induction ns with
  | nil => intro h; simp at h
  | cons n rest ih =>
    intro h0 b
    rw [solveLoopWith, solveLoop]
    by_cases hz : (cell (b.set ptr n) ptr == 0) = true
    · simp only [hz, if_true]
    · have hn := candidate_ne_zero b ptr n hz
      have h0' : (0 : Int) ∈ rest := by
        rcases List.mem_cons.1 h0 with h | h
        · exact absurd h.symm hn
        · exact h
      simp only [hz, Bool.false_eq_true, if_false]
      by_cases hc : (checkSpace (b.set ptr n) ptr == false) = true
      · simp only [hc, if_true]; exact ih h0' _
      · simp only [hc, Bool.false_eq_true, if_false]
        cases hnx : next (b.set ptr n) with
        | none => rfl
        | some res =>
          obtain ⟨r2, b2⟩ := res
          cases r2 with
          | true => rfl
          | false => exact ih h0' _

theorem solveFuelWith_eq (last : Bool) :
    ∀ (fuel : Nat) (b : Board) (ptr : Nat), solveFuelWith last fuel b ptr = solveFuel fuel b ptr := by
  intro fuel
  induction fuel with
  | zero => intro b ptr; rfl
  | succ fuel ih =>
    intro b ptr
    rw [solveFuelWith, solveFuel]
    have hfun : (fun board1 => solveFuelWith last fuel board1 (ptr + 1)) =
        (fun board1 => solveFuel fuel board1 (ptr + 1)) := funext (fun b1 => ih b1 (ptr + 1))
    rw [ih b (ptr + 1), hfun, solveLoopWith_eq last _ ptr nums zero_mem_nums b]

theorem solveLoopWith_true (next : Board → Option (Bool × Board)) (ptr : Nat) :
    ∀ (ns : List Int) (b : Board),
      solveLoopWith true next ptr ns b = solveLoop next ptr ns b := by
  intro ns
  induction ns with
  | nil => intro b; rfl
  | cons n rest ih =>
    intro b
    rw [solveLoopWith, solveLoop]
    by_cases hz : (cell (b.set ptr n) ptr == 0) = true
    · simp only [hz, if_true]
    · simp only [hz, Bool.false_eq_true, if_false]
      by_cases hc : (checkSpace (b.set ptr n) ptr == false) = true
      · simp only [hc, if_true]; exact ih _
      · simp only [hc, Bool.false_eq_true, if_false]
        cases hnx : next (b.set ptr n) with
        | none => rfl
        | some res =>
          obtain ⟨r2, b2⟩ := res
          cases r2 with
          | true => rfl
          | false => exact ih _

/-! ## The grid found is the greatest completion -/

theorem solveLoop_greatest (ptr : Nat) (hp : ptr < 81) (b : Board) (hb : b.length = 81)
    (hcons : Consistent b) (hpre : ∀ i, i < ptr → cell b i ≠ 0)
    (hIH : ∀ (b1 r : Board), b1.length = 81 → Consistent b1 →
      (∀ i, i < ptr + 1 → cell b1 i ≠ 0) → solve b1 (ptr + 1) = some (true, r) →
      ∀ s, Completes s b1 → LexLE s r) :
    ∀ (ns : List Int), ns.Pairwise (fun x y => x > y) → ∀ (m : Int) (r : Board),
      solveLoop (fun b1 => solve b1 (ptr + 1)) ptr ns (b.set ptr m) = some (true, r) →
      ∀ s, Completes s b → cell s ptr ∈ ns → LexLE s r := by
  intro ns
  induction ns with
  | nil => intro _ _ _ _ _ _ h; simp at h
  | cons n rest ih =>
    intro hpw m r hres s hs hmem
    have hb1 : (b.set ptr n).length = 81 := by simpa using hb
    have hset : (b.set ptr m).set ptr n = b.set ptr n := List.set_set _ _ _ _
    have hcell : cell (b.set ptr n) ptr = n := cell_set_eq b ptr n (by omega)
    have hpw' := (List.pairwise_cons.1 hpw).2
    rw [solveLoop] at hres
    simp only [hset, hcell] at hres
    by_cases hn : n = 0
    · subst hn
      simp at hres
    · have hn' : (n == 0) = false := by simpa using hn
      simp only [hn', Bool.false_eq_true, if_false] at hres
      have hcomp : cell s ptr = n → Completes s (b.set ptr n) := by
        intro h; rw [← h]; exact completes_set s b ptr hs
      by_cases hc : checkSpace (b.set ptr n) ptr = true
      · simp only [hc, Bool.true_eq_false, beq_iff_eq, if_false] at hres
        have hcons1 : Consistent (b.set ptr n) := consistent_set b hb ptr hp n hcons hc
        cases hnx : solve (b.set ptr n) (ptr + 1) with
        | none => simp [hnx] at hres
        | some res =>
          obtain ⟨r2, b2⟩ := res
          cases r2 with
          | true =>
            simp only [hnx, Option.some.injEq, Prod.mk.injEq, true_and] at hres
            subst hres
            by_cases heq : cell s ptr = n
            · refine hIH _ _ hb1 hcons1 ?_ hnx s (hcomp heq)
              intro i hi
              by_cases hip : i = ptr
              · subst hip; rw [hcell]; exact hn
              · rw [cell_set_ne _ _ _ _ hip]; exact hpre i (by omega)
            · have hlt : cell s ptr < n := by
                rcases List.mem_cons.1 hmem with h | h
                · exact absurd h heq
                · exact (List.pairwise_cons.1 hpw).1 _ h
              have hfr := (solve_frame _ _ _ _ hb1 hnx).2
              refine Or.inr ⟨ptr, hp, fun i hi => ?_, ?_⟩
              · rw [hfr i (by omega), cell_set_ne _ _ _ _ (by omega)]
                exact hs.2 i (by omega) (hpre i hi)
              · rw [hfr ptr (by omega), hcell]; exact hlt
          | false =>
            simp only [hnx] at hres
            have hb2 : b2 = b.set ptr n :=
              (solve_consistent_aux (81 - (ptr + 1)) (ptr + 1) (by omega) _ false b2 hb1
                hcons1 hnx).1 rfl
            have hne : cell s ptr ≠ n := by
              intro heq
              obtain ⟨r3, h3⟩ := solve_complete_aux (81 - (ptr + 1)) (ptr + 1) (by omega) s _
                hb1 (hcomp heq)
              rw [hnx] at h3
              simp at h3
            rw [hb2] at hres
            refine ih hpw' n r hres s hs ?_
            rcases List.mem_cons.1 hmem with h | h
            · exact absurd h hne
            · exact h
      · have hc' : checkSpace (b.set ptr n) ptr = false := by simpa using hc
        simp only [hc', beq_self_eq_true, if_true] at hres
        have hne : cell s ptr ≠ n := by
          intro heq
          exact hc (checkSpace_of_consistent _ hb1 ptr
            (consistent_of_completes s _ (hcomp heq)))
        refine ih hpw' n r hres s hs ?_
        rcases List.mem_cons.1 hmem with h | h
        · exact absurd h hne
        · exact h

theorem solve_greatest_aux :
    ∀ (k ptr : Nat), ptr + k = 81 → ∀ (b r : Board), b.length = 81 → Consistent b →
      (∀ i, i < ptr → cell b i ≠ 0) → solve b ptr = some (true, r) →
      ∀ s, Completes s b → LexLE s r := by
  intro k
  induction k with
  | zero =>
    intro ptr hk b r hb hcons hpre h s hs
    rw [solve_ge b ptr (by omega)] at h
    simp only [Option.some.injEq, Prod.mk.injEq, true_and] at h
    subst h
    exact Or.inl (fun i hi => hs.2 i hi (hpre i (by omega)))
  | succ k ih =>
    intro ptr hk b r hb hcons hpre h s hs
    have hp : ptr < 81 := by omega
    rw [solve_lt b ptr hp] at h
    by_cases hg : (cell b ptr != 0 && checkSpace b ptr == true) = true
    · simp only [hg, if_true] at h
      refine ih (ptr + 1) (by omega) b r hb hcons ?_ h s hs
      intro i hi
      by_cases hip : i = ptr
      · subst hip; exact ((guard_iff b i).1 hg).1
      · exact hpre i (by omega)
    · have hz : cell b ptr = 0 := by
        by_contra hnz
        exact hg ((guard_iff b ptr).2 ⟨hnz, checkSpace_of_consistent b hb ptr hcons⟩)
      simp only [hg, Bool.false_eq_true, if_false] at h
      have hself : b.set ptr 0 = b := by
        have := set_cell_self b ptr hb
        rwa [hz] at this
      rw [← hself] at h
      exact solveLoop_greatest ptr hp b hb hcons hpre
        (fun b1 r1 h1 h2 h3 h4 => ih (ptr + 1) (by omega) b1 r1 h1 h2 h3 h4)
        nums nums_sorted 0 r h s hs
        (digits_mem_nums _ ((consistent_of_solved s hs.1).2 ptr hp))

/-! ## Printing and parsing integers -/

theorem charDigit_digitChar : ∀ d, d < 10 → charDigit (digitChar d) = some d := by decide

theorem digitChar_ne_special :
    ∀ d, d < 10 → digitChar d ≠ ',' ∧ digitChar d ≠ '\n' ∧ digitChar d ≠ '\r' ∧
      digitChar d ≠ '-' ∧ digitChar d ≠ '+' := by decide

theorem parseDigits_map (ds : List Nat) (h : ∀ d, d ∈ ds → d < 10) :
    ∀ acc, parseDigits (ds.map digitChar) acc =
      some (ds.foldl (fun a d => a * 10 + d) acc) := by
  induction ds with
  | nil => intro acc; rfl
  | cons d rest ih =>
    intro acc
    simp only [List.map_cons, parseDigits, charDigit_digitChar d (h d (List.mem_cons_self _ _)),
      List.foldl_cons]
    exact ih (fun x hx => h x (List.mem_cons_of_mem _ hx)) _

theorem foldl_reverse_digits (ds : List Nat) :
    ds.reverse.foldl (fun a d => a * 10 + d) 0 = Nat.ofDigits 10 ds := by
  induction ds with
  | nil => rfl
  | cons d rest ih =>
    rw [List.reverse_cons, List.foldl_append, ih, Nat.ofDigits_cons]
    simp only [List.foldl_cons, List.foldl_nil]
    omega

/-- The characters of `fmtNat n` are digits: a list of digits below 10 whose
value is `n`. -/
theorem fmtNat_spec (n : Nat) :
    ∃ ds : List Nat, ds ≠ [] ∧ (∀ d, d ∈ ds → d < 10) ∧ fmtNat n = ds.map digitChar ∧
      ds.foldl (fun a d => a * 10 + d) 0 = n := by
  by_cases hn : n = 0
  · subst hn
    exact ⟨[0], by simp, by simp, by simp [fmtNat, digitChar], by simp⟩
  · refine ⟨(Nat.digits 10 n).reverse, ?_, ?_, by simp [fmtNat, hn], ?_⟩
    · simpa using Nat.digits_ne_nil_iff_ne_zero.2 hn
    · intro d hd
      exact Nat.digits_lt_base (by omega) (List.mem_reverse.1 hd)
    · rw [foldl_reverse_digits, Nat.ofDigits_digits]

theorem parseNat_fmtNat (n : Nat) : parseNat (fmtNat n) = some n := by
  obtain ⟨ds, hne, hlt, heq, hval⟩ := fmtNat_spec n
  have hne' : ds.map digitChar ≠ [] := by simpa using hne
  rw [parseNat, heq, if_neg hne', parseDigits_map ds hlt, hval]

theorem fmtNat_head (n : Nat) :
    ∃ c cs, fmtNat n = c :: cs ∧ c ≠ '-' ∧ c ≠ '+' := by
  obtain ⟨ds, hne, hlt, heq, _⟩ := fmtNat_spec n
  cases ds with
  | nil => exact absurd rfl hne
  | cons d rest =>
    have := digitChar_ne_special d (hlt d (List.mem_cons_self _ _))
    exact ⟨digitChar d, rest.map digitChar, by rw [heq]; rfl, this.2.2.2.1, this.2.2.2.2⟩

theorem atoi_fmtInt (n : Int) (hlo : intMin ≤ n) (hhi : n ≤ intMax) :
    atoi (fmtInt n) = some n := by
  unfold fmtInt
  by_cases hneg : n < 0
  · simp only [hneg, if_true, atoi, parseNat_fmtNat]
    have h1 : -((n.natAbs : Nat) : Int) = n := by omega
    rw [h1]
    simp only [if_neg (not_lt.2 hlo)]
  · obtain ⟨c, cs, hcs, hc1, hc2⟩ := fmtNat_head n.natAbs
    simp only [hneg, if_false]
    have hp := parseNat_fmtNat n.natAbs
    rw [hcs] at hp ⊢
    simp only [atoi, hc1, hc2, if_false, hp]
    have h1 : ((n.natAbs : Nat) : Int) = n := by omega
    rw [h1]
    simp only [if_neg (not_lt.2 hhi)]

/-- Every character of a printed integer is a digit or the sign `-`. -/
theorem fmtInt_chars (n : Int) (c : Char) (hc : c ∈ fmtInt n) :
    c ≠ ',' ∧ c ≠ '\n' ∧ c ≠ '\r' := by
  have hnat : ∀ m : Nat, c ∈ fmtNat m → c ≠ ',' ∧ c ≠ '\n' ∧ c ≠ '\r' := by
    intro m hm
    obtain ⟨ds, _, hlt, heq, _⟩ := fmtNat_spec m
    rw [heq] at hm
    obtain ⟨d, hd, rfl⟩ := List.mem_map.1 hm
    have := digitChar_ne_special d (hlt d hd)
    exact ⟨this.1, this.2.1, this.2.2.1⟩
  unfold fmtInt at hc
  by_cases hneg : n < 0
  · simp only [hneg, if_true, List.mem_cons] at hc
    rcases hc with rfl | hc
    · decide
    · exact hnat _ hc
  · simp only [hneg, if_false] at hc
    exact hnat _ hc

theorem fmtInt_ne_dash (n : Int) : fmtInt n ≠ ['-'] := by
  unfold fmtInt
  obtain ⟨c, cs, hcs, hc1, _⟩ := fmtNat_head n.natAbs
  by_cases hneg : n < 0
  · simp only [hneg, if_true, hcs]
    simp
  · simp only [hneg, if_false, hcs]
    intro h
    exact hc1 (List.cons.inj h).1

theorem fmtNat_length (m : Nat) (h : m < 10 ^ 19) : (fmtNat m).length ≤ 19 := by
  unfold fmtNat
  by_cases hm : m = 0
  · simp [hm]
  · simp only [hm, if_false, List.length_map, List.length_reverse]
    by_contra hlen
    have h1 : 10 ^ 19 ≤ 10 ^ ((Nat.digits 10 m).length - 1) :=
      Nat.pow_le_pow_right (by omega) (by omega)
    have h2 := Nat.base_pow_length_digits_le 10 m (by omega) hm
    have h3 : 10 ^ (Nat.digits 10 m).length = 10 * 10 ^ ((Nat.digits 10 m).length - 1) := by
      rw [← pow_succ']
      congr 1
      omega
    omega

theorem fmtInt_length (n : Int) (hlo : intMin ≤ n) (hhi : n ≤ intMax) :
    (fmtInt n).length ≤ 20 := by
  have hb : n.natAbs < 10 ^ 19 := by
    simp only [intMin, intMax] at hlo hhi
    omega
  have := fmtNat_length n.natAbs hb
  unfold fmtInt
  by_cases hneg : n < 0
  · simp only [hneg, if_true, List.length_cons]; omega
  · simp only [hneg, if_false]; omega

/-! ## Printing a board and reading it back -/

theorem printCells_row :
    ∀ (seg : List Int) (rest : List Int) (i : Nat), seg ≠ [] → i % 9 + seg.length = 9 →
      printCells (seg ++ rest) i = commaLine seg ++ '\n' :: printCells rest (i + seg.length) := by
  intro seg
  induction seg with
  | nil => intro _ _ h; exact absurd rfl h
  | cons a t ih =>
    intro rest i _ hlen
    cases t with
    | nil =>
      have h8 : i % 9 = 8 := by simpa using hlen
      simp [printCells, commaLine, h8]
    | cons b t' =>
      have h8 : ¬ (i % 9 = 8) := by simp only [List.length_cons] at hlen; omega
      have := ih rest (i + 1) (by simp) (by simp only [List.length_cons] at hlen ⊢; omega)
      rw [show i + 1 + (b :: t').length = i + (a :: b :: t').length by
        simp only [List.length_cons]; omega] at this
      simp only [List.cons_append] at this ⊢
      rw [printCells]
      simp only [beq_iff_eq, h8, if_false]
      rw [this]
      simp [commaLine]

theorem printCells_rows :
    ∀ (m : Nat) (cells : List Int) (l : Nat), cells.length = 9 * m →
      printCells cells (9 * l) =
        ((rowsOf m cells).map (fun r => commaLine r ++ ['\n'])).flatten := by
  intro m
  induction m with
  | zero =>
    intro cells l h
    have : cells = [] := List.length_eq_zero.1 (by omega)
    subst this
    rfl
  | succ m ih =>
    intro cells l h
    have hsplit : cells = cells.take 9 ++ cells.drop 9 := (List.take_append_drop 9 cells).symm
    have htake : (cells.take 9).length = 9 := by simp; omega
    have hne : cells.take 9 ≠ [] := by
      intro h0; rw [h0] at htake; simp at htake
    have hrow := printCells_row (cells.take 9) (cells.drop 9) (9 * l) hne
      (by rw [htake]; omega)
    rw [← hsplit, htake, show 9 * l + 9 = 9 * (l + 1) by omega] at hrow
    rw [hrow, ih (cells.drop 9) (l + 1) (by simp; omega)]
    simp [rowsOf]

theorem rowsOf_flatten :
    ∀ (m : Nat) (cells : List Int), cells.length = 9 * m → (rowsOf m cells).flatten = cells := by
  intro m
  induction m with
  | zero =>
    intro cells h
    have : cells = [] := List.length_eq_zero.1 (by omega)
    subst this
    rfl
  | succ m ih =>
    intro cells h
    simp only [rowsOf, List.flatten_cons, ih (cells.drop 9) (by simp; omega)]
    exact List.take_append_drop 9 cells

theorem rowsOf_mem :
    ∀ (m : Nat) (cells : List Int), cells.length = 9 * m → ∀ r, r ∈ rowsOf m cells →
      r.length = 9 ∧ ∀ v, v ∈ r → v ∈ cells := by
  intro m
  induction m with
  | zero => intro cells _ r hr; simp [rowsOf] at hr
  | succ m ih =>
    intro cells h r hr
    simp only [rowsOf, List.mem_cons] at hr
    rcases hr with rfl | hr
    · exact ⟨by simp; omega, fun v hv => List.mem_of_mem_take hv⟩
    · obtain ⟨h1, h2⟩ := ih (cells.drop 9) (by simp; omega) r hr
      exact ⟨h1, fun v hv => List.mem_of_mem_drop (h2 v hv)⟩

theorem rowsOf_length : ∀ (m : Nat) (cells : List Int), (rowsOf m cells).length = m := by
  intro m
  induction m with
  | zero => intro _; rfl
  | succ m ih => intro cells; simp [rowsOf, ih]

theorem commaLine_chars :
    ∀ (row : List Int) (c : Char), c ∈ commaLine row → c ≠ '\n' ∧ c ≠ '\r' := by
  intro row
  induction row with
  | nil => intro c hc; simp [commaLine] at hc
  | cons a t ih =>
    intro c hc
    cases t with
    | nil =>
      have := fmtInt_chars a c (by simpa [commaLine] using hc)
      exact ⟨this.2.1, this.2.2⟩
    | cons b t' =>
      simp only [commaLine, List.mem_append, List.mem_cons] at hc
      rcases hc with hc | rfl | hc
      · have := fmtInt_chars a c hc
        exact ⟨this.2.1, this.2.2⟩
      · decide
      · exact ih c hc

theorem commaLine_split :
    ∀ (row : List Int), row ≠ [] → stringsSplit (commaLine row) ',' = row.map fmtInt := by
  intro row
  induction row with
  | nil => intro h; exact absurd rfl h
  | cons a t ih =>
    intro _
    have hno : ∀ x, x ∈ fmtInt a → ¬ ((x == ',') = true) := by
      intro x hx h
      exact (fmtInt_chars a x hx).1 (by simpa using h)
    cases t with
    | nil =>
      simp only [commaLine, stringsSplit, List.splitOn, List.map_cons, List.map_nil]
      exact List.splitOnP_eq_single _ _ hno
    | cons b t' =>
      have := ih (by simp)
      simp only [stringsSplit, List.splitOn] at this
      simp only [commaLine, stringsSplit, List.splitOn, List.map_cons]
      rw [List.splitOnP_first _ _ hno ',' (by simp), this]
      rfl

theorem commaLine_length :
    ∀ (row : List Int), row ≠ [] → (∀ v, v ∈ row → intMin ≤ v ∧ v ≤ intMax) →
      (commaLine row).length + 1 ≤ 21 * row.length := by
  intro row
  induction row with
  | nil => intro h; exact absurd rfl h
  | cons a t ih =>
    intro _ h
    have ha := h a (List.mem_cons_self _ _)
    have hlen := fmtInt_length a ha.1 ha.2
    cases t with
    | nil => simp only [commaLine, List.length_cons, List.length_nil]; omega
    | cons b t' =>
      have := ih (by simp) (fun v hv => h v (List.mem_cons_of_mem _ hv))
      simp only [commaLine, List.length_append, List.length_cons] at this ⊢
      omega

theorem splitOn_lines :
    ∀ (lines : List GoString), (∀ line, line ∈ lines → ∀ c, c ∈ line → c ≠ '\n') →
      ((lines.map (fun r => r ++ ['\n'])).flatten).splitOn '\n' = lines ++ [[]] := by
  intro lines
  induction lines with
  | nil => intro _; rfl
  | cons line rest ih =>
    intro h
    have hno : ∀ x, x ∈ line → ¬ ((x == '\n') = true) := by
      intro x hx hx'
      exact h line (List.mem_cons_self _ _) x hx (by simpa using hx')
    have := ih (fun l hl => h l (List.mem_cons_of_mem _ hl))
    simp only [List.splitOn] at this ⊢
    simp only [List.map_cons, List.flatten_cons, List.append_assoc, List.singleton_append]
    rw [List.splitOnP_first _ _ hno '\n' (by simp), this]
    rfl

theorem scanLines_lines (limit : Nat) (lines : List GoString)
    (hchars : ∀ line, line ∈ lines → ∀ c, c ∈ line → c ≠ '\n' ∧ c ≠ '\r')
    (hlen : ∀ line, line ∈ lines → line.length ≤ limit) :
    scanLines limit ((lines.map (fun r => r ++ ['\n'])).flatten) = lines := by
  have hraw : rawLines ((lines.map (fun r => r ++ ['\n'])).flatten) = lines := by
    unfold rawLines
    rw [splitOn_lines lines (fun l hl c hc => (hchars l hl c hc).1)]
    simp
  unfold scanLines
  rw [hraw]
  have htake : lines.takeWhile (fun line => decide (line.length ≤ limit)) = lines := by
    rw [List.takeWhile_eq_self_iff]
    intro l hl
    simpa using hlen l hl
  rw [htake]
  have hstrip : ∀ line, line ∈ lines → stripCR line = line := by
    intro line hl
    unfold stripCR
    rw [if_neg]
    intro hlast
    have hmem : '\r' ∈ line := List.mem_of_getLast?_eq_some hlast
    exact (hchars line hl '\r' hmem).2 rfl
  calc lines.map stripCR = lines.map id := List.map_congr_left hstrip
    _ = lines := List.map_id _

theorem writeFrom_length : ∀ (xs : List Int) (board : Board) (k : Nat),
    (writeFrom board k xs).length = board.length := by
  intro xs
  induction xs with
  | nil => intro _ _; rfl
  | cons x rest ih => intro board k; simp [writeFrom, ih]

theorem writeFrom_append : ∀ (xs ys : List Int) (board : Board) (k : Nat),
    writeFrom board k (xs ++ ys) = writeFrom (writeFrom board k xs) (k + xs.length) ys := by
  intro xs
  induction xs with
  | nil => intro ys board k; rfl
  | cons x rest ih =>
    intro ys board k
    simp only [List.cons_append, writeFrom, List.length_cons]
    have := ih ys (board.set k x) (k + 1)
    rw [show k + 1 + rest.length = k + (rest.length + 1) by omega] at this
    exact this

theorem writeFrom_cell : ∀ (xs : List Int) (board : Board) (k j : Nat),
    k + xs.length ≤ board.length →
    cell (writeFrom board k xs) j =
      if k ≤ j ∧ j < k + xs.length then xs.getD (j - k) 0 else cell board j := by
  intro xs
  induction xs with
  | nil =>
    intro board k j _
    have : ¬ (k ≤ j ∧ j < k + ([] : List Int).length) := by simp
    rw [if_neg this]
    rfl
  | cons x rest ih =>
    intro board k j h
    simp only [List.length_cons] at h
    rw [writeFrom, ih (board.set k x) (k + 1) j (by simp; omega)]
    by_cases hjk : j = k
    · subst hjk
      have h1 : ¬ (j + 1 ≤ j ∧ j < j + 1 + rest.length) := by omega
      have h2 : j ≤ j ∧ j < j + (x :: rest).length := by simp
      rw [if_neg h1, if_pos h2, cell_set_eq _ _ _ (by omega)]
      simp
    · rw [cell_set_ne _ _ _ _ hjk]
      by_cases hin : k + 1 ≤ j ∧ j < k + 1 + rest.length
      · have h2 : k ≤ j ∧ j < k + (x :: rest).length := by
          simp only [List.length_cons]; omega
        rw [if_pos hin, if_pos h2]
        have : j - k = (j - (k + 1)) + 1 := by omega
        rw [this, List.getD_cons_succ]
      · have h2 : ¬ (k ≤ j ∧ j < k + (x :: rest).length) := by
          simp only [List.length_cons]; omega
        rw [if_neg hin, if_neg h2]

theorem writeFrom_all (board b : Board) (hb : b.length = 81) (h0 : board.length = 81) :
    writeFrom board 0 b = b := by
  apply board_ext _ _ (by rw [writeFrom_length, h0]) hb
  intro i hi
  rw [writeFrom_cell b board 0 i (by omega), if_pos (by omega)]
  rfl

theorem buildRow_tokens :
    ∀ (row : List Int) (board : Board) (l i : Nat),
      (∀ v, v ∈ row → intMin ≤ v ∧ v ≤ intMax) → i + row.length + 9 * l ≤ 81 →
      buildRow board l (row.map fmtInt) i = .ok (writeFrom board (i + 9 * l) row) := by
  intro row
  induction row with
  | nil => intro board l i _ _; rfl
  | cons a rest ih =>
    intro board l i hr hlen
    simp only [List.length_cons] at hlen
    have ha := hr a (List.mem_cons_self _ _)
    have hidx : i + 9 * l < 81 := by omega
    simp only [List.map_cons, buildRow, fmtInt_ne_dash a, if_false, atoi_fmtInt a ha.1 ha.2,
      hidx, if_true, writeFrom]
    rw [ih _ l (i + 1) (fun v hv => hr v (List.mem_cons_of_mem _ hv)) (by omega)]
    congr 2
    omega

theorem buildLines_rows :
    ∀ (rows : List (List Int)) (board : Board) (l : Nat),
      (∀ r, r ∈ rows → r.length = 9 ∧ ∀ v, v ∈ r → intMin ≤ v ∧ v ≤ intMax) →
      l + rows.length ≤ 9 →
      buildLines board (rows.map commaLine) l = .ok (writeFrom board (9 * l) rows.flatten) := by
  intro rows
  induction rows with
  | nil => intro board l _ _; rfl
  | cons r rest ih =>
    intro board l hrows hlen
    simp only [List.length_cons] at hlen
    obtain ⟨hr9, hrange⟩ := hrows r (List.mem_cons_self _ _)
    have hne : r ≠ [] := by intro h; rw [h] at hr9; simp at hr9
    simp only [List.map_cons, buildLines, commaLine_split r hne]
    rw [buildRow_tokens r board l 0 hrange (by omega)]
    simp only [Nat.zero_add]
    rw [ih _ (l + 1) (fun x hx => hrows x (List.mem_cons_of_mem _ hx)) (by omega)]
    rw [List.flatten_cons, writeFrom_append, hr9]
    congr 2

/-- The text printed for a board of 81 cells, scanned with a line limit of at
least 188 bytes and parsed, gives the board back. -/
theorem build_print (b board : Board) (limit : Nat) (hb : b.length = 81)
    (hrange : InIntRange b) (h0 : board.length = 81) (hlimit : 188 ≤ limit) :
    scanLines limit (printBoard b) = (rowsOf 9 b).map commaLine ∧
    buildBoard (scanLines limit (printBoard b)) board = .ok b := by
  have hrows := rowsOf_mem 9 b (by omega)
  have hrows' : ∀ r, r ∈ rowsOf 9 b → r.length = 9 ∧ ∀ v, v ∈ r → intMin ≤ v ∧ v ≤ intMax :=
    fun r hr => ⟨(hrows r hr).1, fun v hv => hrange v ((hrows r hr).2 v hv)⟩
  have htext : printBoard b =
      (((rowsOf 9 b).map commaLine).map (fun r => r ++ ['\n'])).flatten := by
    have := printCells_rows 9 b 0 (by omega)
    rw [printBoard, this, List.map_map]
    rfl
  have hscan : scanLines limit (printBoard b) = (rowsOf 9 b).map commaLine := by
    rw [htext]
    apply scanLines_lines
    · intro line hl
      obtain ⟨r, _, rfl⟩ := List.mem_map.1 hl
      exact commaLine_chars r
    · intro line hl
      obtain ⟨r, hr, rfl⟩ := List.mem_map.1 hl
      have hne : r ≠ [] := by
        intro h0; have := (hrows' r hr).1; rw [h0] at this; simp at this
      have := commaLine_length r hne (hrows' r hr).2
      rw [(hrows' r hr).1] at this
      omega
  refine ⟨hscan, ?_⟩
  rw [hscan, buildBoard, buildLines_rows (rowsOf 9 b) board 0 hrows'
    (by rw [rowsOf_length]), rowsOf_flatten 9 b (by omega)]
  exact congrArg _ (writeFrom_all board b hb h0)

/-! ## What `buildBoard` detects -/

theorem buildRow_bad (l : Nat) :
    ∀ (toks : List GoString) (board : Board) (i : Nat),
      (∃ tok, tok ∈ toks ∧ ¬ GoodToken tok) → ∃ e, buildRow board l toks i = .error e := by
  intro toks
  induction toks with
  | nil => rintro _ _ ⟨tok, h, _⟩; simp at h
  | cons t rest ih =>
    intro board i hbad
    rw [buildRow]
    by_cases hdash : t = ['-']
    · have hrest : ∃ tok, tok ∈ rest ∧ ¬ GoodToken tok := by
        obtain ⟨tok, hmem, hb⟩ := hbad
        rcases List.mem_cons.1 hmem with rfl | h
        · exact absurd (Or.inl hdash) hb
        · exact ⟨tok, h, hb⟩
      simp only [hdash, if_true]
      by_cases hidx : i + 9 * l < 81
      · simp only [hidx, if_true]; exact ih _ _ hrest
      · simp only [hidx, if_false]; exact ⟨_, rfl⟩
    · simp only [hdash, if_false]
      cases hat : atoi t with
      | none => exact ⟨_, rfl⟩
      | some v =>
        have hrest : ∃ tok, tok ∈ rest ∧ ¬ GoodToken tok := by
          obtain ⟨tok, hmem, hb⟩ := hbad
          rcases List.mem_cons.1 hmem with rfl | h
          · exact absurd (Or.inr (by rw [hat]; rfl)) hb
          · exact ⟨tok, h, hb⟩
        by_cases hidx : i + 9 * l < 81
        · simp only [hidx, if_true]; exact ih _ _ hrest
        · simp only [hidx, if_false]; exact ⟨_, rfl⟩

theorem buildLines_bad :
    ∀ (lines : List GoString) (board : Board) (l : Nat),
      (∃ line, line ∈ lines ∧ ∃ tok, tok ∈ stringsSplit line ',' ∧ ¬ GoodToken tok) →
      ∃ e, buildLines board lines l = .error e := by
  intro lines
  induction lines with
  | nil => rintro _ _ ⟨line, h, _⟩; simp at h
  | cons first rest ih =>
    intro board l hbad
    rw [buildLines]
    cases hrow : buildRow board l (stringsSplit first ',') 0 with
    | error e => exact ⟨e, rfl⟩
    | ok board1 =>
      simp only []
      apply ih
      obtain ⟨line, hmem, htok⟩ := hbad
      rcases List.mem_cons.1 hmem with rfl | h
      · obtain ⟨e, he⟩ := buildRow_bad l _ board 0 htok
        rw [hrow] at he
        cases he
      · exact ⟨line, h, htok⟩

theorem buildRow_past_end (board : Board) (l : Nat) (hl : 9 ≤ l) (toks : List GoString)
    (hne : toks ≠ []) : ∃ e, buildRow board l toks 0 = .error e := by
  cases toks with
  | nil => exact absurd rfl hne
  | cons t rest =>
    rw [buildRow]
    have hidx : ¬ (0 + 9 * l < 81) := by omega
    cases h : (if t = ['-'] then some 0 else atoi t) with
    | none => exact ⟨_, rfl⟩
    | some v => simp only [hidx, if_false]; exact ⟨_, rfl⟩

theorem buildLines_too_many :
    ∀ (lines : List GoString) (board : Board) (l : Nat), l ≤ 9 → 9 < l + lines.length →
      ∃ e, buildLines board lines l = .error e := by
  intro lines
  induction lines with
  | nil =>
    intro board l hl h
    simp only [List.length_nil] at h
    omega
  | cons first rest ih =>
    intro board l _ h
    simp only [List.length_cons] at h
    rw [buildLines]
    cases hrow : buildRow board l (stringsSplit first ',') 0 with
    | error e => exact ⟨e, rfl⟩
    | ok board1 =>
      simp only []
      by_cases hl : 9 ≤ l
      · obtain ⟨e, he⟩ := buildRow_past_end board l hl (stringsSplit first ',')
          (List.splitOnP_ne_nil _ _)
        rw [hrow] at he
        cases he
      · exact ih board1 (l + 1) (by omega) (by omega)

theorem buildRow_good (l : Nat) :
    ∀ (toks : List GoString) (board : Board) (i : Nat),
      (∀ tok, tok ∈ toks → GoodToken tok) → i + toks.length + 9 * l ≤ 81 →
      ∃ b', buildRow board l toks i = .ok b' := by
  intro toks
  induction toks with
  | nil => intro board i _ _; exact ⟨board, rfl⟩
  | cons t rest ih =>
    intro board i hgood hlen
    simp only [List.length_cons] at hlen
    have hidx : i + 9 * l < 81 := by omega
    have hrest : ∀ tok, tok ∈ rest → GoodToken tok :=
      fun tok h => hgood tok (List.mem_cons_of_mem _ h)
    rw [buildRow]
    by_cases hdash : t = ['-']
    · simp only [hdash, if_true, hidx]
      exact ih _ _ hrest (by omega)
    · rcases hgood t (List.mem_cons_self _ _) with h | hv
      · exact absurd h hdash
      · obtain ⟨v, hv⟩ := Option.isSome_iff_exists.1 hv
        simp only [hdash, if_false, hv, hidx, if_true]
        exact ih _ _ hrest (by omega)

theorem buildLines_good :
    ∀ (lines : List GoString) (board : Board) (l : Nat),
      (∀ line, line ∈ lines → (stringsSplit line ',').length ≤ 9 ∧
        ∀ tok, tok ∈ stringsSplit line ',' → GoodToken tok) →
      l + lines.length ≤ 9 → ∃ b', buildLines board lines l = .ok b' := by
  intro lines
  induction lines with
  | nil => intro board l _ _; exact ⟨board, rfl⟩
  | cons first rest ih =>
    intro board l hgood hlen
    simp only [List.length_cons] at hlen
    obtain ⟨h9, htok⟩ := hgood first (List.mem_cons_self _ _)
    obtain ⟨b1, hb1⟩ := buildRow_good l (stringsSplit first ',') board 0 htok (by omega)
    rw [buildLines, hb1]
    exact ih b1 (l + 1) (fun line h => hgood line (List.mem_cons_of_mem _ h)) (by omega)

theorem shortLines_build :
    buildBoard shortLines emptyGrid = .ok ([1, 2, 3, 4, 5, 6, 7, 8] ++ List.replicate 73 0) := by
  rfl

theorem buildRow_values (l : Nat) :
    ∀ (toks : List GoString) (board : Board) (i : Nat),
      (∀ tok, tok ∈ toks → GoodToken tok) → i + toks.length + 9 * l ≤ 81 →
      buildRow board l toks i = .ok (writeFrom board (i + 9 * l) (toks.map tokenValue)) := by
  intro toks
  induction toks with
  | nil => intro board i _ _; rfl
  | cons t rest ih =>
    intro board i hgood hlen
    simp only [List.length_cons] at hlen
    have hidx : i + 9 * l < 81 := by omega
    have hrest : ∀ tok, tok ∈ rest → GoodToken tok :=
      fun tok h => hgood tok (List.mem_cons_of_mem _ h)
    have hnext := ih (board.set (i + 9 * l) (tokenValue t)) (i + 1) hrest (by omega)
    rw [show i + 1 + 9 * l = i + 9 * l + 1 by omega] at hnext
    rw [buildRow]
    by_cases hdash : t = ['-']
    · have hv : tokenValue t = 0 := by simp [tokenValue, hdash]
      rw [hv] at hnext
      simp only [hdash, if_true, hidx, List.map_cons, writeFrom]
      rw [← hdash, hnext, hv]
    · rcases hgood t (List.mem_cons_self _ _) with h | hsome
      · exact absurd h hdash
      · obtain ⟨v, hv⟩ := Option.isSome_iff_exists.1 hsome
        have hval : tokenValue t = v := by simp [tokenValue, hdash, hv]
        rw [hval] at hnext
        simp only [hdash, if_false, hv, hidx, if_true, List.map_cons, writeFrom]
        rw [hnext, hval]

theorem tokenAt_cons (first : GoString) (rest : List GoString) (k : Nat) :
    tokenAt (first :: rest) k =
      if k < 9 then (stringsSplit first ',')[k]? else tokenAt rest (k - 9) := by
  unfold tokenAt
  by_cases hk : k < 9
  · have h1 : k / 9 = 0 := by omega
    have h2 : k % 9 = k := by omega
    simp [hk, h1, h2]
  · have h1 : k / 9 = (k - 9) / 9 + 1 := by omega
    have h2 : k % 9 = (k - 9) % 9 := by omega
    simp only [hk, if_false, h1, h2, List.getElem?_cons_succ]

/-- The board left by the lines from line `l` on, cell by cell. -/
theorem buildLines_values :
    ∀ (lines : List GoString) (board : Board) (l : Nat), board.length = 81 →
      (∀ line, line ∈ lines → (stringsSplit line ',').length ≤ 9 ∧
        ∀ tok, tok ∈ stringsSplit line ',' → GoodToken tok) →
      l + lines.length ≤ 9 →
      ∃ b', buildLines board lines l = .ok b' ∧ b'.length = 81 ∧
        ∀ j, cell b' j =
          if 9 * l ≤ j then
            (match tokenAt lines (j - 9 * l) with
              | some tok => tokenValue tok
              | none => cell board j)
          else cell board j := by
  intro lines
  induction lines with
  | nil =>
    intro board l hb _ _
    refine ⟨board, rfl, hb, fun j => ?_⟩
    simp [tokenAt]
  | cons first rest ih =>
    intro board l hb hgood hlen
    simp only [List.length_cons] at hlen
    obtain ⟨h9, htok⟩ := hgood first (List.mem_cons_self _ _)
    have hrow := buildRow_values l (stringsSplit first ',') board 0 htok (by omega)
    rw [Nat.zero_add] at hrow
    have hb1 : (writeFrom board (9 * l) ((stringsSplit first ',').map tokenValue)).length = 81 := by
      rw [writeFrom_length, hb]
    obtain ⟨b', hb', hlen', hcells⟩ := ih _ (l + 1) hb1
      (fun line h => hgood line (List.mem_cons_of_mem _ h)) (by omega)
    refine ⟨b', by rw [buildLines, hrow]; exact hb', hlen', fun j => ?_⟩
    have hw := writeFrom_cell ((stringsSplit first ',').map tokenValue) board (9 * l) j
      (by rw [List.length_map, hb]; omega)
    rw [List.length_map] at hw
    rw [hcells j]
    by_cases h1 : 9 * (l + 1) ≤ j
    · have h2 : 9 * l ≤ j := by omega
      have h3 : ¬ (j - 9 * l < 9) := by omega
      have h4 : ¬ (9 * l ≤ j ∧ j < 9 * l + (stringsSplit first ',').length) := by omega
      rw [if_pos h1, if_pos h2, tokenAt_cons, if_neg h3, hw, if_neg h4,
        show j - 9 * l - 9 = j - 9 * (l + 1) by omega]
    · rw [if_neg h1, hw]
      by_cases h2 : 9 * l ≤ j
      · have h3 : j - 9 * l < 9 := by omega
        rw [if_pos h2, tokenAt_cons, if_pos h3]
        by_cases h5 : j < 9 * l + (stringsSplit first ',').length
        · have h6 : j - 9 * l < (stringsSplit first ',').length := by omega
          rw [if_pos ⟨h2, h5⟩, List.getElem?_eq_getElem h6]
          simp only []
          rw [List.getD_eq_getElem?_getD, List.getElem?_map, List.getElem?_eq_getElem h6]
          rfl
        · have h6 : (stringsSplit first ',').length ≤ j - 9 * l := by omega
          rw [if_neg (fun h => h5 h.2), List.getElem?_eq_none h6]
      · rw [if_neg h2, if_neg (fun h => h2 h.1)]

theorem buildBoard_values (lines : List GoString) (board : Board) (hb : board.length = 81)
    (hgood : ∀ line, line ∈ lines → (stringsSplit line ',').length ≤ 9 ∧
      ∀ tok, tok ∈ stringsSplit line ',' → GoodToken tok)
    (hlen : lines.length ≤ 9) :
    ∃ b', buildBoard lines board = .ok b' ∧ b'.length = 81 ∧
      ∀ j, j < 81 → cell b' j = expectedCell lines board j := by
  obtain ⟨b', h1, h2, h3⟩ := buildLines_values lines board 0 hb hgood (by omega)
  refine ⟨b', h1, h2, fun j _ => ?_⟩
  have := h3 j
  simpa [expectedCell] using this

theorem buildRow_error_exit (l : Nat) :
    ∀ (toks : List GoString) (board : Board) (i : Nat) (e : Abort),
      i + toks.length + 9 * l ≤ 81 → buildRow board l toks i = .error e → e = .exit2 := by
  intro toks
  induction toks with
  | nil => intro board i e _ h; simp [buildRow] at h
  | cons t rest ih =>
    intro board i e hlen h
    simp only [List.length_cons] at hlen
    have hidx : i + 9 * l < 81 := by omega
    rw [buildRow] at h
    cases hv : (if t = ['-'] then some 0 else atoi t) with
    | none =>
      simp only [hv] at h
      exact (Except.error.inj h).symm
    | some v =>
      simp only [hv, hidx, if_true] at h
      exact ih _ _ e (by omega) h

theorem buildRow_error_index (l : Nat) :
    ∀ (toks : List GoString) (board : Board) (i : Nat) (e : Abort),
      (∀ tok, tok ∈ toks → GoodToken tok) → buildRow board l toks i = .error e →
      e = .indexOutOfRange := by
  intro toks
  induction toks with
  | nil => intro board i e _ h; simp [buildRow] at h
  | cons t rest ih =>
    intro board i e hgood h
    have hrest : ∀ tok, tok ∈ rest → GoodToken tok :=
      fun tok h => hgood tok (List.mem_cons_of_mem _ h)
    rw [buildRow] at h
    cases hv : (if t = ['-'] then some 0 else atoi t) with
    | none =>
      exfalso
      rcases hgood t (List.mem_cons_self _ _) with hd | hs
      · simp [hd] at hv
      · by_cases hd : t = ['-']
        · simp [hd] at hv
        · simp only [hd, if_false] at hv
          rw [hv] at hs
          simp at hs
    | some v =>
      simp only [hv] at h
      by_cases hidx : i + 9 * l < 81
      · simp only [hidx, if_true] at h
        exact ih _ _ e hrest h
      · simp only [hidx, if_false] at h
        exact (Except.error.inj h).symm

theorem buildLines_error_exit :
    ∀ (lines : List GoString) (board : Board) (l : Nat) (e : Abort),
      (∀ line, line ∈ lines → (stringsSplit line ',').length ≤ 9) → l + lines.length ≤ 9 →
      buildLines board lines l = .error e → e = .exit2 := by
  intro lines
  induction lines with
  | nil => intro board l e _ _ h; simp [buildLines] at h
  | cons first rest ih =>
    intro board l e hshape hlen h
    simp only [List.length_cons] at hlen
    have h9 := hshape first (List.mem_cons_self _ _)
    rw [buildLines] at h
    cases hrow : buildRow board l (stringsSplit first ',') 0 with
    | error e1 =>
      simp only [hrow] at h
      rw [← Except.error.inj h]
      exact buildRow_error_exit l _ board 0 e1 (by omega) hrow
    | ok board1 =>
      simp only [hrow] at h
      exact ih board1 (l + 1) e (fun line hl => hshape line (List.mem_cons_of_mem _ hl))
        (by omega) h

theorem buildLines_error_index :
    ∀ (lines : List GoString) (board : Board) (l : Nat) (e : Abort),
      (∀ line, line ∈ lines → ∀ tok, tok ∈ stringsSplit line ',' → GoodToken tok) →
      buildLines board lines l = .error e → e = .indexOutOfRange := by
  intro lines
  induction lines with
  | nil => intro board l e _ h; simp [buildLines] at h
  | cons first rest ih =>
    intro board l e hgood h
    rw [buildLines] at h
    cases hrow : buildRow board l (stringsSplit first ',') 0 with
    | error e1 =>
      simp only [hrow] at h
      rw [← Except.error.inj h]
      exact buildRow_error_index l _ board 0 e1 (hgood first (List.mem_cons_self _ _)) hrow
    | ok board1 =>
      simp only [hrow] at h
      exact ih board1 (l + 1) e (fun line hl => hgood line (List.mem_cons_of_mem _ hl)) h

/-! ## The claims -/

/-- C1: for a solvable grid `g` (81 cells in `[0, 9]`, some valid completion
exists), if `solve(g, 0)` returns true then in the grid left behind every row,
every column and every 3x3 box contains each digit 1..9 exactly once, and no
cell is 0. -/
theorem solve_true_is_valid (g r : Board) (hlen : g.length = 81) (hrange : InRange g)
    (_hsolv : ∃ s, Completes s g) (h : solve g 0 = some (true, r)) :
    Solved r ∧ ∀ i, i < 81 → cell r i ≠ 0 := by
  have hs := solve_true_solved g r hlen hrange h
  refine ⟨hs, fun i hi => ?_⟩
  have := (mem_digits _).1 ((consistent_of_solved r hs).2 i hi)
  omega

theorem solve_true_is_valid_witness :
    puzzle.length = 81 ∧ InRange puzzle ∧ (∃ s, Completes s puzzle) ∧
      solve puzzle 0 = some (true, solvedGrid) ∧
      (Solved solvedGrid ∧ ∀ i, i < 81 → cell solvedGrid i ≠ 0) :=
  ⟨rfl, puzzle_inRange, ⟨solvedGrid, puzzle_completes⟩, solve_puzzle,
    solve_true_is_valid puzzle solvedGrid rfl puzzle_inRange
      ⟨solvedGrid, puzzle_completes⟩ solve_puzzle⟩

/-- C2: for a solvable grid `g` (cells in `[0, 9]`, a valid completion exists),
if `solve(g, 0)` returns true then every cell that was non-zero in `g` holds the
same value in the grid left behind. -/
theorem solve_keeps_clues (g r : Board) (hlen : g.length = 81) (_hrange : InRange g)
    (hsolv : ∃ s, Completes s g) (h : solve g 0 = some (true, r)) :
    ∀ i, i < 81 → cell g i ≠ 0 → cell r i = cell g i := by
  obtain ⟨s, hs⟩ := hsolv
  exact (solve_consistent_aux 81 0 (by omega) g true r hlen
    (consistent_of_completes s g hs) h).2 rfl

theorem solve_keeps_clues_witness :
    puzzle.length = 81 ∧ InRange puzzle ∧ (∃ s, Completes s puzzle) ∧
      solve puzzle 0 = some (true, solvedGrid) ∧
      (∀ i, i < 81 → cell puzzle i ≠ 0 → cell solvedGrid i = cell puzzle i) :=
  ⟨rfl, puzzle_inRange, ⟨solvedGrid, puzzle_completes⟩, solve_puzzle,
    solve_keeps_clues puzzle solvedGrid rfl puzzle_inRange
      ⟨solvedGrid, puzzle_completes⟩ solve_puzzle⟩

/-- C3: completeness. For a grid `g` with cells in `[0, 9]`: if `g` has a valid
completion then `solve(g, 0)` returns true; equivalently, if `solve(g, 0)`
returns false then `g` has no valid completion. -/
theorem solve_complete (g : Board) (hlen : g.length = 81) (_hrange : InRange g) :
    ((∃ s, Completes s g) → ∃ r, solve g 0 = some (true, r)) ∧
    ((∃ r, solve g 0 = some (false, r)) → ¬ ∃ s, Completes s g) := by
  have h1 : (∃ s, Completes s g) → ∃ r, solve g 0 = some (true, r) := by
    rintro ⟨s, hs⟩
    exact solve_complete_aux 81 0 (by omega) s g hlen hs
  refine ⟨h1, ?_⟩
  rintro ⟨r, hr⟩ hsolv
  obtain ⟨r', hr'⟩ := h1 hsolv
  rw [hr] at hr'
  simp at hr'

theorem solve_complete_witness :
    puzzle.length = 81 ∧ InRange puzzle ∧ (∃ s, Completes s puzzle) ∧
      (((∃ s, Completes s puzzle) → ∃ r, solve puzzle 0 = some (true, r)) ∧
       ((∃ r, solve puzzle 0 = some (false, r)) → ¬ ∃ s, Completes s puzzle)) :=
  ⟨rfl, puzzle_inRange, ⟨solvedGrid, puzzle_completes⟩,
    solve_complete puzzle rfl puzzle_inRange⟩

/-- C4, the claim fails: the grid `dupGrid` has cells in `[0, 9]`, holds the
clue 8 twice in its first row, has no valid completion that keeps its clues,
and `solve(dupGrid, 0)` returns true: the first 8 is re-decided to 9. -/
theorem solve_dup_clues_true :
    dupGrid.length = 81 ∧ InRange dupGrid ∧
      (cell dupGrid 0 = cell dupGrid 1 ∧ cell dupGrid 0 ≠ 0 ∧ sameRow 0 1 = true) ∧
      (¬ ∃ s, Completes s dupGrid) ∧
      solve dupGrid 0 = some (true, solvedGrid) :=
  ⟨rfl, dupGrid_inRange, ⟨by decide, by decide, by decide⟩, dupGrid_unsolvable,
    solve_dupGrid⟩

/-- C4, amended: for an unsolvable grid `g` (cells in `[0, 9]`, no valid
completion that keeps every non-zero cell of `g`) in which no row, column or
box holds the same non-zero value twice, `solve(g, 0)` returns false. -/
theorem solve_unsolvable_false (g : Board) (hlen : g.length = 81) (hrange : InRange g)
    (hcons : Consistent g) (hun : ¬ ∃ s, Completes s g) :
    ∃ r, solve g 0 = some (false, r) := by
  obtain ⟨⟨res, r⟩, hr⟩ := solve_returns g 0
  cases res with
  | false => exact ⟨r, hr⟩
  | true => exact absurd ⟨r, solve_true_completes g r hlen hrange hcons hr⟩ hun

theorem solve_unsolvable_false_witness :
    stuckGrid.length = 81 ∧ InRange stuckGrid ∧ Consistent stuckGrid ∧
      (¬ ∃ s, Completes s stuckGrid) ∧ ∃ r, solve stuckGrid 0 = some (false, r) :=
  ⟨rfl, stuckGrid_inRange, stuckGrid_consistent, stuckGrid_unsolvable,
    solve_unsolvable_false stuckGrid rfl stuckGrid_inRange stuckGrid_consistent
      stuckGrid_unsolvable⟩

/-- C5: for a grid `g` (cells in `[0, 9]`) with exactly one valid completion
`s`, `solve(g, 0)` returns true and the grid left behind is `s`; so any two
results of `solve` on `g` are the same. -/
theorem solve_unique_completion (g s : Board) (hlen : g.length = 81) (hrange : InRange g)
    (hs : Completes s g) (huniq : ∀ s', Completes s' g → s' = s) :
    solve g 0 = some (true, s) ∧
      ∀ r1 r2, solve g 0 = some r1 → solve g 0 = some r2 → r1 = r2 := by
  obtain ⟨r, hr⟩ := solve_complete_aux 81 0 (by omega) s g hlen hs
  have hc := solve_true_completes g r hlen hrange (consistent_of_completes s g hs) hr
  rw [huniq r hc] at hr
  refine ⟨hr, fun r1 r2 h1 h2 => ?_⟩
  rw [h1] at h2
  exact Option.some.inj h2

theorem solve_unique_completion_witness :
    oneBlank.length = 81 ∧ InRange oneBlank ∧ Completes solvedGrid oneBlank ∧
      (∀ s', Completes s' oneBlank → s' = solvedGrid) ∧
      (solve oneBlank 0 = some (true, solvedGrid) ∧
        ∀ r1 r2, solve oneBlank 0 = some r1 → solve oneBlank 0 = some r2 → r1 = r2) :=
  ⟨rfl, oneBlank_inRange, completes_blank solvedGrid solvedGrid_solved 40,
    one_blank_unique solvedGrid solvedGrid_solved 40 (by decide),
    solve_unique_completion oneBlank solvedGrid rfl oneBlank_inRange
      (completes_blank solvedGrid solvedGrid_solved 40)
      (one_blank_unique solvedGrid solvedGrid_solved 40 (by decide))⟩

/-- C6: for an already-complete valid grid `g`, `solve(g, 0)` returns true and
leaves `g`; the guard of the already-filled branch holds at every position, and
the run performs no assignment to a cell. -/
theorem solve_full_grid (g : Board) (h : Solved g) :
    solve g 0 = some (true, g) ∧
      (∀ ptr, ptr < 81 → (cell g ptr != 0 && checkSpace g ptr == true) = true) ∧
      solveLog g 0 [] = some (true, g, []) := by
  have hlog := solveLog_solved_aux g h 81 0 (by omega) []
  refine ⟨?_, fun ptr hp => guard_of_solved g h ptr hp, hlog⟩
  rw [← solveLog_erase g 0 [], hlog]
  rfl

theorem solve_full_grid_witness :
    Solved solvedGrid ∧
      (solve solvedGrid 0 = some (true, solvedGrid) ∧
        (∀ ptr, ptr < 81 →
          (cell solvedGrid ptr != 0 && checkSpace solvedGrid ptr == true) = true) ∧
        solveLog solvedGrid 0 [] = some (true, solvedGrid, [])) :=
  ⟨solvedGrid_solved, solve_full_grid solvedGrid solvedGrid_solved⟩

/-- C7: for a board `b` and a position `ptr` in `[0, 80]`, `checkSpace(b, ptr)`
returns false exactly when two distinct positions, both in the row of `ptr`, or
both in its column, or both in its box, hold the same non-zero value; it
returns true exactly when the non-zero values of the row, of the column and of
the box are each pairwise distinct; and replacing a cell by 0 never turns an
accepted board into a rejected one. -/
theorem checkSpace_spec (b : Board) (ptr : Nat) (hb : b.length = 81) (_hp : ptr < 81) :
    (checkSpace b ptr = false ↔ Collision b ptr) ∧
    (checkSpace b ptr = true ↔
      GroupDistinct b (fun i => sameRow i ptr) ∧
      GroupDistinct b (fun i => sameCol i ptr) ∧
      GroupDistinct b (fun i => sameBox i ptr)) ∧
    (∀ i, checkSpace b ptr = true → checkSpace (b.set i 0) ptr = true) := by
  refine ⟨checkSpace_eq_false_iff b hb ptr, checkSpace_eq_true_iff b hb ptr, ?_⟩
  intro i h
  have hb' : (b.set i 0).length = 81 := by simpa using hb
  rw [checkSpace_eq_true_iff b hb ptr] at h
  rw [checkSpace_eq_true_iff _ hb' ptr]
  have key : ∀ g, GroupDistinct b g → GroupDistinct (b.set i 0) g := by
    intro g hg a c ha hc hac hga hgc hnz
    have hai : a ≠ i := by
      intro e
      subst e
      exact hnz (cell_set_eq b a 0 (by omega))
    rw [cell_set_ne _ _ _ _ hai] at hnz ⊢
    by_cases hci : c = i
    · subst hci
      rw [cell_set_eq b c 0 (by omega)]
      exact hnz
    · rw [cell_set_ne _ _ _ _ hci]
      exact hg a c ha hc hac hga hgc hnz
  exact ⟨key _ h.1, key _ h.2.1, key _ h.2.2⟩

theorem checkSpace_spec_witness :
    dupGrid.length = 81 ∧ 0 < 81 ∧
      ((checkSpace dupGrid 0 = false ↔ Collision dupGrid 0) ∧
       (checkSpace dupGrid 0 = true ↔
         GroupDistinct dupGrid (fun i => sameRow i 0) ∧
         GroupDistinct dupGrid (fun i => sameCol i 0) ∧
         GroupDistinct dupGrid (fun i => sameBox i 0)) ∧
       (∀ i, checkSpace dupGrid 0 = true → checkSpace (dupGrid.set i 0) 0 = true)) :=
  ⟨rfl, by decide, checkSpace_spec dupGrid 0 rfl (by decide)⟩

/-- C8: for a complete valid grid `s` and a position `k` in `[0, 80]`, with `g`
the grid `s` with cell `k` set to 0: `solve(g, 0)` returns true and leaves `s`,
which differs from `g` at cell `k` only, where it holds the digit of `s`; every
assignment of the run is to cell `k`, and the last one writes that digit. -/
theorem solve_one_blank (s : Board) (k : Nat) (hs : Solved s) (hk : k < 81) :
    solve (s.set k 0) 0 = some (true, s) ∧
      (∀ i, i < 81 → i ≠ k → cell s i = cell (s.set k 0) i) ∧
      (1 ≤ cell s k ∧ cell s k ≤ 9) ∧
      solveLog (s.set k 0) 0 [] = some (true, s, blankWrites s k) ∧
      (∀ w, w ∈ blankWrites s k → w.1 = k) ∧
      (blankWrites s k).getLast? = some (k, cell s k) := by
  have hlog : solveLog (s.set k 0) 0 [] = some (true, s, blankWrites s k) := by
    have := solveLog_one_blank_aux s hs k hk k 0 (by omega) []
    simpa using this
  refine ⟨?_, fun i _ hik => (cell_set_ne _ _ _ _ hik).symm,
    (mem_digits _).1 ((consistent_of_solved s hs).2 k hk), hlog, ?_, ?_⟩
  · rw [← solveLog_erase _ 0 [], hlog]
    rfl
  · intro w hw
    simp only [blankWrites, List.mem_append, List.mem_map, List.mem_singleton] at hw
    rcases hw with ⟨n, _, rfl⟩ | rfl <;> rfl
  · simp [blankWrites]

theorem solve_one_blank_witness :
    Solved solvedGrid ∧ 40 < 81 ∧
      (solve (solvedGrid.set 40 0) 0 = some (true, solvedGrid) ∧
        (∀ i, i < 81 → i ≠ 40 → cell solvedGrid i = cell (solvedGrid.set 40 0) i) ∧
        (1 ≤ cell solvedGrid 40 ∧ cell solvedGrid 40 ≤ 9) ∧
        solveLog (solvedGrid.set 40 0) 0 [] =
          some (true, solvedGrid, blankWrites solvedGrid 40) ∧
        (∀ w, w ∈ blankWrites solvedGrid 40 → w.1 = 40) ∧
        (blankWrites solvedGrid 40).getLast? = some (40, cell solvedGrid 40)) :=
  ⟨solvedGrid_solved, by decide, solve_one_blank solvedGrid 40 solvedGrid_solved (by decide)⟩

/-- C9: on the all-empty grid `solve(grid, 0)` returns true, and the grid left
behind is a valid Sudoku solution: every cell is in 1..9 and every row, column
and 3x3 box contains each digit 1..9 exactly once. -/
theorem solve_empty_grid :
    (∀ i, i < 81 → cell emptyGrid i = 0) ∧
      ∃ r, solve emptyGrid 0 = some (true, r) ∧ Solved r ∧
        ∀ i, i < 81 → 1 ≤ cell r i ∧ cell r i ≤ 9 := by
  have hlen : emptyGrid.length = 81 := rfl
  have hz : ∀ i, i < 81 → cell emptyGrid i = 0 := by decide
  have hrange : InRange emptyGrid := fun i hi => by rw [hz i hi]; decide
  have hcomp : Completes solvedGrid emptyGrid :=
    ⟨solvedGrid_solved, fun i hi hnz => absurd (hz i hi) hnz⟩
  obtain ⟨r, hr⟩ := solve_complete_aux 81 0 (by omega) solvedGrid emptyGrid hlen hcomp
  have hs := solve_true_solved emptyGrid r hlen hrange hr
  exact ⟨hz, r, hr, hs, fun i hi => (mem_digits _).1 ((consistent_of_solved r hs).2 i hi)⟩

/-- C10: `solve` terminates on every input. For every grid (any integer cell
values) and every `ptr` in `[0, 81]`, `solve(grid, ptr)` returns a boolean
within a nesting depth of `81 - ptr` further calls (and a larger bound on the
depth gives the same result), and the loop of one call makes at most 9
recursive calls. -/
theorem solve_terminates (b : Board) (ptr : Nat) (_hb : b.length = 81) (_hp : ptr ≤ 81) :
    (∃ r b', solveFuel (81 - ptr + 1) b ptr = some (r, b')) ∧
    (∀ fuel, 81 - ptr < fuel → solveFuel fuel b ptr = solveFuel (81 - ptr + 1) b ptr) ∧
    loopCalls (fun b1 => solve b1 (ptr + 1)) ptr nums b ≤ 9 := by
  obtain ⟨⟨r, b'⟩, hr⟩ := solveFuel_returns (81 - ptr + 1) b ptr (by omega)
  refine ⟨⟨r, b', hr⟩, fun fuel hf => ?_, ?_⟩
  · have := solveFuel_mono _ b ptr _ hr (fuel - (81 - ptr + 1))
    rw [hr, ← this]
    congr 1
    omega
  · exact loopCalls_le _ ptr nums b

theorem solve_terminates_witness :
    stuckGrid.length = 81 ∧ 0 ≤ 81 ∧
      ((∃ r b', solveFuel (81 - 0 + 1) stuckGrid 0 = some (r, b')) ∧
       (∀ fuel, 81 - 0 < fuel →
         solveFuel fuel stuckGrid 0 = solveFuel (81 - 0 + 1) stuckGrid 0) ∧
       loopCalls (fun b1 => solve b1 (0 + 1)) 0 nums stuckGrid ≤ 9) :=
  ⟨rfl, by decide, solve_terminates stuckGrid 0 rfl (by decide)⟩

/-- C11: `x_y` is a bijection from the indices `[0, 80]` onto
`{0..8} x {0..8}`: for `ptr` in `[0, 80]`, `x_y(ptr) = (ptr % 9, ptr / 9)` has
both components in `[0, 8]` and `ptr = x + 9 * y`; and for every `(x, y)` with
`x, y` in `[0, 8]` exactly one `ptr` in `[0, 80]` has `x_y(ptr) = (x, y)`. -/
theorem x_y_bijection :
    (∀ ptr, ptr < 81 →
      x_y ptr = (ptr % 9, ptr / 9) ∧ (x_y ptr).1 < 9 ∧ (x_y ptr).2 < 9 ∧
        ptr = (x_y ptr).1 + 9 * (x_y ptr).2) ∧
    (∀ x y, x < 9 → y < 9 → ∃! ptr, ptr < 81 ∧ x_y ptr = (x, y)) := by
  constructor
  · intro ptr hp
    refine ⟨rfl, ?_, ?_, ?_⟩ <;> simp only [x_y] <;> omega
  · intro x y hx hy
    refine ⟨x + 9 * y, ⟨by omega, ?_⟩, ?_⟩
    · simp only [x_y, Prod.mk.injEq]
      constructor <;> omega
    · rintro p ⟨_, hp⟩
      simp only [x_y, Prod.mk.injEq] at hp
      omega

/-- C12: the relation `inSameSector(x_y(a), x_y(b))` on positions is
reflexive, symmetric and transitive; it holds exactly when the box identifiers
`(row / 3, column / 3)` of `a` and `b` are equal; the positions `0..80` have 9
distinct box identifiers, so there are 9 classes; and every position of
`[0, 80]` has exactly 9 positions of `[0, 80]` in its class. -/
theorem sameBox_partition :
    (∀ a, sameBox a a = true) ∧
    (∀ a b, sameBox a b = true → sameBox b a = true) ∧
    (∀ a b c, sameBox a b = true → sameBox b c = true → sameBox a c = true) ∧
    (∀ a b, sameBox a b = true ↔ boxId a = boxId b) ∧
    ((List.range 81).map boxId).dedup.length = 9 ∧
    (∀ a, a < 81 → ((List.range 81).filter (fun b => sameBox a b)).length = 9) :=
  ⟨sameBox_refl, fun _ _ h => sameBox_symm h, fun _ _ _ h1 h2 => sameBox_trans h1 h2,
    sameBox_iff_boxId, boxId_count, box_class_size⟩

/-- C13: the grid invariant is preserved by `solve`. For a grid of 81 cells in
`[0, 9]` and `ptr` in `[0, 81]`, `solve(grid, ptr)` returns (true or false), and
the grid left behind has 81 cells, each in `[0, 9]`. -/
theorem solve_preserves_range (b : Board) (ptr : Nat) (hlen : b.length = 81)
    (hrange : InRange b) (hp : ptr ≤ 81) :
    ∃ r b', solve b ptr = some (r, b') ∧ b'.length = 81 ∧ InRange b' := by
  obtain ⟨⟨r, b'⟩, hr⟩ := solve_returns b ptr
  exact ⟨r, b', hr, (solve_frame b ptr r b' hlen hr).1,
    solve_inRange_aux (81 - ptr) ptr (by omega) b r b' hlen hrange hr⟩

theorem solve_preserves_range_witness :
    puzzle.length = 81 ∧ InRange puzzle ∧ 3 ≤ 81 ∧
      ∃ r b', solve puzzle 3 = some (r, b') ∧ b'.length = 81 ∧ InRange b' :=
  ⟨rfl, puzzle_inRange, by decide,
    solve_preserves_range puzzle 3 rfl puzzle_inRange (by decide)⟩

/-- C16: failure leaves the input intact. For a grid `g` in which no row,
column or box holds the same non-zero value twice, if `solve(g, 0)` returns
false then the grid left behind equals `g` in all 81 cells. -/
theorem solve_false_restores (g r : Board) (hlen : g.length = 81) (hcons : Consistent g)
    (h : solve g 0 = some (false, r)) :
    r = g ∧ ∀ i, i < 81 → cell r i = cell g i := by
  have := (solve_consistent_aux 81 0 (by omega) g false r hlen hcons h).1 rfl
  exact ⟨this, fun i _ => by rw [this]⟩

theorem solve_false_restores_witness :
    stuckGrid.length = 81 ∧ Consistent stuckGrid ∧
      solve stuckGrid 0 = some (false, stuckGrid) ∧
      (stuckGrid = stuckGrid ∧ ∀ i, i < 81 → cell stuckGrid i = cell stuckGrid i) :=
  ⟨rfl, stuckGrid_consistent, solve_stuckGrid,
    solve_false_restores stuckGrid stuckGrid rfl stuckGrid_consistent solve_stuckGrid⟩

/-- C18: a true result always means a valid grid. For a grid `g` with cells in
`[0, 9]`, whether or not its clues collide, if `solve(g, 0)` returns true then
the grid left behind has no zero cell and every row, column and 3x3 box
contains each digit 1..9 exactly once. -/
theorem solve_true_always_valid (g r : Board) (hlen : g.length = 81) (hrange : InRange g)
    (h : solve g 0 = some (true, r)) :
    (∀ i, i < 81 → cell r i ≠ 0) ∧ Solved r := by
  have hs := solve_true_solved g r hlen hrange h
  refine ⟨fun i hi => ?_, hs⟩
  have := (mem_digits _).1 ((consistent_of_solved r hs).2 i hi)
  omega

theorem solve_true_always_valid_witness :
    dupGrid.length = 81 ∧ InRange dupGrid ∧ ¬ Consistent dupGrid ∧
      solve dupGrid 0 = some (true, solvedGrid) ∧
      ((∀ i, i < 81 → cell solvedGrid i ≠ 0) ∧ Solved solvedGrid) :=
  ⟨rfl, dupGrid_inRange,
    fun hc => hc 0 (by decide) 1 (by decide) (by decide) (by decide) (by decide) (by decide),
    solve_dupGrid, solve_true_always_valid dupGrid solvedGrid rfl dupGrid_inRange solve_dupGrid⟩

/-- C20: `solve(grid, ptr)` never writes a cell before its cursor. For `ptr` in
`[0, 81]` the call returns, every cell at an index below `ptr` holds the value
it held before the call, and every assignment performed by the call is to an
index at or above `ptr`. -/
theorem solve_frame_before_cursor (b : Board) (ptr : Nat) (hlen : b.length = 81)
    (_hp : ptr ≤ 81) :
    ∃ r b' w, solve b ptr = some (r, b') ∧ solveLog b ptr [] = some (r, b', w) ∧
      (∀ i, i < ptr → cell b' i = cell b i) ∧ (∀ x, x ∈ w → ptr ≤ x.1) := by
  obtain ⟨r, b', l', hl, hs⟩ := solveLog_returns b ptr []
  obtain ⟨w, hw, hmem⟩ := solveLogFuel_writes _ b ptr [] r b' l' hl
  rw [List.nil_append] at hw
  subst hw
  exact ⟨r, b', l', hs, hl, (solve_frame b ptr r b' hlen hs).2, hmem⟩

theorem solve_frame_before_cursor_witness :
    puzzle.length = 81 ∧ 40 ≤ 81 ∧
      ∃ r b' w, solve puzzle 40 = some (r, b') ∧ solveLog puzzle 40 [] = some (r, b', w) ∧
        (∀ i, i < 40 → cell b' i = cell puzzle i) ∧ (∀ x, x ∈ w → 40 ≤ x.1) :=
  ⟨rfl, by decide, solve_frame_before_cursor puzzle 40 rfl (by decide)⟩

/-- C14: rendering and parsing round-trip. For a board `b` (81 cells of type
`int`), the text written by `printBoard(b)` is scanned into 9 lines of 9
comma-separated tokens (an empty cell is written as `0`), and `buildBoard`
parses them into a board equal to `b`. -/
theorem print_build_roundtrip (b board : Board) (limit : Nat) (hb : b.length = 81)
    (hrange : InIntRange b) (h0 : board.length = 81) (hlimit : 188 ≤ limit) :
    buildBoard (scanLines limit (printBoard b)) board = .ok b ∧
      (scanLines limit (printBoard b)).length = 9 ∧
      (∀ line, line ∈ scanLines limit (printBoard b) → (stringsSplit line ',').length = 9) ∧
      fmtInt 0 = ['0'] := by
  obtain ⟨hscan, hbuild⟩ := build_print b board limit hb hrange h0 hlimit
  refine ⟨hbuild, by rw [hscan, List.length_map, rowsOf_length], ?_, by decide⟩
  intro line hl
  rw [hscan] at hl
  obtain ⟨r, hr, rfl⟩ := List.mem_map.1 hl
  have h9 := (rowsOf_mem 9 b (by omega) r hr).1
  have hne : r ≠ [] := by intro h; rw [h] at h9; simp at h9
  rw [commaLine_split r hne, List.length_map, h9]

theorem print_build_roundtrip_witness :
    solvedGrid.length = 81 ∧ InIntRange solvedGrid ∧ emptyGrid.length = 81 ∧ 188 ≤ 65535 ∧
      (buildBoard (scanLines 65535 (printBoard solvedGrid)) emptyGrid = .ok solvedGrid ∧
        (scanLines 65535 (printBoard solvedGrid)).length = 9 ∧
        (∀ line, line ∈ scanLines 65535 (printBoard solvedGrid) →
          (stringsSplit line ',').length = 9) ∧
        fmtInt 0 = ['0']) :=
  ⟨rfl, by decide, rfl, by decide,
    print_build_roundtrip solvedGrid emptyGrid 65535 rfl (by decide) rfl (by decide)⟩

/-- C15, the claim fails: an input without any line, and an input of nine
lines whose first line has eight tokens only, are both read without an error:
`buildBoard` returns a board. -/
theorem buildBoard_accepts_malformed :
    (([] : List GoString).length ≠ 9 ∧ buildBoard [] emptyGrid = .ok emptyGrid) ∧
    (shortLines.length = 9 ∧ eightTokens ∈ shortLines ∧
      (stringsSplit eightTokens ',').length = 8 ∧
      (∀ line, line ∈ shortLines → ∀ tok, tok ∈ stringsSplit line ',' → GoodToken tok) ∧
      buildBoard shortLines emptyGrid =
        .ok ([1, 2, 3, 4, 5, 6, 7, 8] ++ List.replicate 73 0)) :=
  ⟨⟨by decide, rfl⟩, by decide, by decide, by decide, by decide, shortLines_build⟩

/-- C15, amended: for a board of 81 cells and the lines the scanner yields.
If some line holds a token that is neither the placeholder `-` nor accepted by
`strconv.Atoi`, or if there are more than 9 lines, `buildBoard` aborts instead
of returning a board; the abort is `os.Exit(2)` when there are at most 9 lines
of at most 9 tokens, and the index panic when every token is accepted.  If
every token is accepted, no line has more than 9 tokens and there are at most
9 lines, `buildBoard` returns a board of 81 cells in which cell `j` holds the
value of token `j % 9` of line `j / 9` when the input has that token, and the
value it had before otherwise. -/
theorem buildBoard_detects (lines : List GoString) (board : Board)
    (hboard : board.length = 81) :
    (((∃ line, line ∈ lines ∧ ∃ tok, tok ∈ stringsSplit line ',' ∧ ¬ GoodToken tok) ∨
        9 < lines.length) → ∃ e, buildBoard lines board = .error e) ∧
    (∀ e, buildBoard lines board = .error e →
      ((∀ line, line ∈ lines → (stringsSplit line ',').length ≤ 9) → lines.length ≤ 9 →
        e = .exit2) ∧
      ((∀ line, line ∈ lines → ∀ tok, tok ∈ stringsSplit line ',' → GoodToken tok) →
        e = .indexOutOfRange)) ∧
    ((∀ line, line ∈ lines → (stringsSplit line ',').length ≤ 9 ∧
        ∀ tok, tok ∈ stringsSplit line ',' → GoodToken tok) →
      lines.length ≤ 9 →
      ∃ b', buildBoard lines board = .ok b' ∧ b'.length = 81 ∧
        ∀ j, j < 81 → cell b' j = expectedCell lines board j) := by
  refine ⟨?_, fun e he => ⟨?_, ?_⟩, ?_⟩
  · rintro (h | h)
    · exact buildLines_bad lines board 0 h
    · exact buildLines_too_many lines board 0 (by omega) (by omega)
  · intro hshape hlen
    exact buildLines_error_exit lines board 0 e hshape (by omega) he
  · intro hgood
    exact buildLines_error_index lines board 0 e hgood he
  · intro hgood hlen
    exact buildBoard_values lines board hboard hgood hlen

theorem buildBoard_detects_witness :
    emptyGrid.length = 81 ∧
      (∃ line, line ∈ badLines ∧ ∃ tok, tok ∈ stringsSplit line ',' ∧ ¬ GoodToken tok) ∧
      (∃ e, buildBoard badLines emptyGrid = .error e) ∧
      ¬ GoodToken overflowToken ∧
      9 < tenLines.length ∧
      (∃ e, buildBoard tenLines emptyGrid = .error e) ∧
      (∀ line, line ∈ shortLines → (stringsSplit line ',').length ≤ 9 ∧
        ∀ tok, tok ∈ stringsSplit line ',' → GoodToken tok) ∧
      shortLines.length ≤ 9 ∧
      (∃ b', buildBoard shortLines emptyGrid = .ok b' ∧ b'.length = 81 ∧
        ∀ j, j < 81 → cell b' j = expectedCell shortLines emptyGrid j) :=
  ⟨rfl, ⟨['1', ',', 'x'], by decide, ['x'], by decide, by decide⟩,
    (buildBoard_detects badLines emptyGrid rfl).1
      (Or.inl ⟨['1', ',', 'x'], by decide, ['x'], by decide, by decide⟩),
    by decide, by decide,
    (buildBoard_detects tenLines emptyGrid rfl).1 (Or.inr (by decide)),
    by decide, by decide,
    (buildBoard_detects shortLines emptyGrid rfl).2.2 (by decide) (by decide)⟩

/-- C17: the solution found is the greatest one. For a solvable grid `g` (cells
in `[0, 9]`), `solve(g, 0)` returns true and the grid left behind is a valid
completion of `g` that is lexicographically greater than or equal to every
valid completion of `g`, grids being compared cell by cell in index order. -/
theorem solve_greatest (g : Board) (hlen : g.length = 81) (hrange : InRange g)
    (hsolv : ∃ s, Completes s g) :
    ∃ r, solve g 0 = some (true, r) ∧ Completes r g ∧ ∀ s, Completes s g → LexLE s r := by
  obtain ⟨s0, hs0⟩ := hsolv
  have hcons := consistent_of_completes s0 g hs0
  obtain ⟨r, hr⟩ := solve_complete_aux 81 0 (by omega) s0 g hlen hs0
  exact ⟨r, hr, solve_true_completes g r hlen hrange hcons hr,
    solve_greatest_aux 81 0 (by omega) g r hlen hcons (fun i hi => absurd hi (by omega)) hr⟩

theorem solve_greatest_witness :
    puzzle.length = 81 ∧ InRange puzzle ∧ (∃ s, Completes s puzzle) ∧
      ∃ r, solve puzzle 0 = some (true, r) ∧ Completes r puzzle ∧
        ∀ s, Completes s puzzle → LexLE s r :=
  ⟨rfl, puzzle_inRange, ⟨solvedGrid, puzzle_completes⟩,
    solve_greatest puzzle rfl puzzle_inRange ⟨solvedGrid, puzzle_completes⟩⟩

/-- C19: the final `return true` after the candidate loop of `solve` is
unreachable. For every grid and every `ptr`, the loop over `nums` returns the
same result whatever the statement after the loop returns, and so does `solve`;
with `true` after the loop the variant is the loop of the program, for every
list of candidates. -/
theorem final_return_unreachable (last : Bool) (b : Board) (ptr : Nat) :
    solveWith last b ptr = solve b ptr ∧
    (∀ (next : Board → Option (Bool × Board)) (b1 : Board),
      solveLoopWith last next ptr nums b1 = solveLoop next ptr nums b1) ∧
    (∀ (next : Board → Option (Bool × Board)) (ns : List Int) (b1 : Board),
      solveLoopWith true next ptr ns b1 = solveLoop next ptr ns b1) := by
  exact ⟨solveFuelWith_eq last _ b ptr,
    fun next b1 => solveLoopWith_eq last next ptr nums zero_mem_nums b1,
    fun next ns b1 => solveLoopWith_true next ptr ns b1⟩

end Sudoku
